import Mathlib

/-!
# coremon: sampling engine of the per-core CPU monitor

A shallow embedding of `coremon.c` (count_cores, poll_cores, the loop of
handlerDraw, on_tick / on_closing) together with the properties of the
sampling engine.

Conventions of the embedding.

* A file opened with `fopen` is the list of characters still unread.
* A C string is a list of characters without NUL; `cstr` is the view the
  string functions have of a buffer (everything before the first NUL).
* `uint64_t` values are naturals reduced modulo `2 ^ 64`; `int` results of
  `atoi` are integers reduced to the 32-bit two's-complement range.
* The library functions `strstr`, `atoi` and `sscanf` follow ISO C as
  implemented by glibc on LP64 Linux (the program is Linux-only).
* Behaviour that C leaves undefined (a NULL string handed to `sscanf`, an
  array index outside the allocation) is the outcome `Run.undefined`.
* Signed `int` arithmetic that overflows is undefined in C and is
  `Run.undefined` as well.
* A `double` is an IEEE 754 binary64 value and double expressions are
  evaluated in binary64 (as on x86-64 and AArch64 Linux); the conversions and
  operations the program makes on doubles round to nearest, ties to even
  (`Dbl`).
* Loops that read a file until `readline` returns NULL take a fuel argument;
  the entry points supply `length + 1`, which is proved to be enough.
-/

namespace Coremon

/-! ## Data types -/

/-- The `State` struct: two `uint64_t` tick counters. -/
structure State where
  cpu : Nat
  sys : Nat
  deriving DecidableEq, Repr

/-- The `Core` struct: the previous and the current sample. -/
structure Core where
  last : State
  now : State
  deriving DecidableEq, Repr

/-- Outcome of running a piece of the program. -/
inductive Run (α : Type) where
  | ok : α → Run α
  | undefined : Run α
  | outOfFuel : Run α
  deriving DecidableEq, Repr

/-- The constant `POLLS_PER_SEC`. -/
def POLLS_PER_SEC : Nat := 4

/-- Number of values of a `uint64_t`. -/
def U64 : Nat := 2 ^ 64

/-! ## C strings and the library functions used by the program -/

/-- The C-string view of a buffer: the characters before the first NUL. -/
def cstr (buf : List Char) : List Char :=
  buf.takeWhile (fun c => c != '\x00')

/-- The C library function `strstr`, as the offset of the first occurrence of
`needle` in `hay`; `none` is the NULL result. -/
def strstr : List Char → List Char → Option Nat
  | [], needle => if needle.isEmpty then some 0 else none
  | c :: cs, needle =>
    if needle.isPrefixOf (c :: cs) then some 0
    else (strstr cs needle).map (fun off => off + 1)

/-- The function `startswith`: `strstr(s, pfx) == s`. -/
def startswith (s pfx : List Char) : Bool :=
  strstr s pfx == some 0

/-- The C library predicate `isspace` in the C locale. -/
def isspace (c : Char) : Bool :=
  c == ' ' || c == '\t' || c == '\n' || c == '\x0b' || c == '\x0c' || c == '\r'

/-- The C library predicate `isdigit`. -/
def isdigit (c : Char) : Bool :=
  decide (48 ≤ c.toNat) && decide (c.toNat ≤ 57)

/-- Value of a decimal digit character. -/
def digitVal (c : Char) : Nat := c.toNat - 48

/-- Reads the longest run of decimal digits at the front of the input,
accumulating its value onto `acc`; returns the value, the number of digits
consumed and the unread remainder. -/
def readDigits : List Char → Nat → Nat → Nat × Nat × List Char
  | [], acc, cnt => (acc, cnt, [])
  | c :: cs, acc, cnt =>
    if isdigit c then readDigits cs (10 * acc + digitVal c) (cnt + 1)
    else (acc, cnt, c :: cs)

/-- Drops leading white space, as `strtol` and the scanf conversions do. -/
def skipSpace : List Char → List Char
  | [] => []
  | c :: cs => if isspace c then skipSpace cs else c :: cs

/-- Reads an optional sign; the boolean is true for a minus sign. -/
def readSign : List Char → Bool × List Char
  | '-' :: cs => (true, cs)
  | '+' :: cs => (false, cs)
  | cs => (false, cs)

/-- The C library function `strtol` in base 10 with a 64-bit `long`: the
value saturates at `LONG_MAX` and `LONG_MIN`, and is 0 without digits. -/
def strtol (s : List Char) : Int :=
  let (neg, t) := readSign (skipSpace s)
  let (v, _, _) := readDigits t 0 0
  if neg then max (-(v : Int)) (-(2 : Int) ^ 63) else min (v : Int) ((2 : Int) ^ 63 - 1)

/-- Conversion of a `long` to `int`: reduction to the 32-bit two's-complement
range. -/
def toInt32 (x : Int) : Int :=
  (x + 2 ^ 31) % 2 ^ 32 - 2 ^ 31

/-- The C library function `atoi`, which glibc defines as
`(int) strtol(nptr, NULL, 10)`. -/
def atoi (s : List Char) : Int :=
  toInt32 (strtol s)

/-- One `%lu` conversion of `sscanf` (`PRIu64` on LP64): white space is
skipped, an optional sign and at least one digit are read, and the value is
converted as `strtoul` does (saturating at `ULONG_MAX`, a minus sign negating
modulo `2 ^ 64`).  `none` is a failed conversion. -/
def scanU64 (inp : List Char) : Option (Nat × List Char) :=
  let (neg, t) := readSign (skipSpace inp)
  let (v, cnt, rest) := readDigits t 0 0
  if cnt = 0 then none
  else if U64 ≤ v then some (U64 - 1, rest)
  else if neg then some ((U64 - v) % U64, rest)
  else some (v, rest)

/-- The seven local variables that `sscanf` fills in `poll_cores`. -/
structure Fields where
  user : Nat
  nice : Nat
  system : Nat
  idle : Nat
  iowait : Nat
  irq : Nat
  softirq : Nat
  deriving DecidableEq, Repr

/-- The call `sscanf(rest, "%lu %lu %lu %lu %lu %lu %lu", &user, ..., &softirq)`.
The conversions are made left to right and stop at the first failure; a
variable whose conversion was not reached keeps the value `init` gives it,
which in the program is the indeterminate value of an uninitialised local.
The white space between the directives is subsumed by the skipping that each
`%lu` does itself. -/
def sscanf7 (rest : List Char) (init : Fields) : Fields :=
  match scanU64 rest with
  | none => init
  | some (a, r1) =>
  match scanU64 r1 with
  | none => { init with user := a }
  | some (b, r2) =>
  match scanU64 r2 with
  | none => { init with user := a, nice := b }
  | some (c, r3) =>
  match scanU64 r3 with
  | none => { init with user := a, nice := b, system := c }
  | some (d, r4) =>
  match scanU64 r4 with
  | none => { init with user := a, nice := b, system := c, idle := d }
  | some (e, r5) =>
  match scanU64 r5 with
  | none => { init with user := a, nice := b, system := c, idle := d, iowait := e }
  | some (f, r6) =>
  match scanU64 r6 with
  | none =>
    { init with user := a, nice := b, system := c, idle := d, iowait := e, irq := f }
  | some (g, _) =>
    { user := a, nice := b, system := c, idle := d, iowait := e, irq := f, softirq := g }

/-! ## readline and count_cores -/

/-- The `for (;;)` loop of `readline`: characters are appended to the buffer
until a newline or the end of the file.  Returns the buffer, the `eof` flag
and the unread remainder of the file. -/
def readlineLoop : List Char → List Char → List Char × Bool × List Char
  | [], buf => (buf, true, [])
  | c :: cs, buf =>
    if c = '\n' then (buf, false, cs) else readlineLoop cs (buf ++ [c])

/-- The function `readline`: `none` is the NULL result (end of file reached
without reading any data); the second component is the file afterwards. -/
def readline (inp : List Char) : Option (List Char) × List Char :=
  match readlineLoop inp [] with
  | (buf, eof, rest) =>
    if eof && buf.length == 0 then (none, rest) else (some buf, rest)

/-- The largest value of an `int`. -/
def INT_MAX : Int := 2 ^ 31 - 1

/-- The loop of `count_cores`, with the file and the `int` counter as state;
`count++` at `INT_MAX` is undefined. -/
def countLoop : Nat → List Char → Int → Run Int
  | 0, _, _ => Run.outOfFuel
  | fuel + 1, cpuinfo, count =>
    match readline cpuinfo with
    | (none, _) => Run.ok count
    | (some buf, cpuinfo') =>
      if startswith (cstr buf) "processor\t".toList then
        if count < INT_MAX then countLoop fuel cpuinfo' (count + 1) else Run.undefined
      else countLoop fuel cpuinfo' count

/-- The function `count_cores`, on the contents of `/proc/cpuinfo` (the file
is taken to open). -/
def count_cores (cpuinfo : List Char) : Run Int :=
  countLoop (cpuinfo.length + 1) cpuinfo 0

/-! ## poll_cores -/

/-- The body of the loop of `poll_cores` for one line `s` of `/proc/stat`
(as a C string).  `uninit` holds the indeterminate initial values of the
seven locals. -/
def pollLine (uninit : Fields) (s_num_cores : Int) (s : List Char)
    (s_cores : List Core) : Run (List Core) :=
  if startswith s "cpu".toList && !startswith s "cpu ".toList then
    let corenum := atoi (s.drop 3)
    if decide (corenum ≥ 0) && decide (corenum < s_num_cores) then
      match s_cores.get? corenum.toNat with
      | none => Run.undefined
      | some c =>
        match strstr s " ".toList with
        | none => Run.undefined
        | some off =>
          let f := sscanf7 (s.drop off) uninit
          Run.ok (s_cores.set corenum.toNat
            { last := c.now
              now := { cpu := (f.user + f.nice) % U64
                       sys := (f.system + f.iowait + f.irq + f.softirq) % U64 } })
    else Run.ok s_cores
  else Run.ok s_cores

/-- The loop of `poll_cores`; `i` numbers the iterations, and `uninit i` is
what the uninitialised locals hold in iteration `i`. -/
def pollLoop (uninit : Nat → Fields) (s_num_cores : Int) :
    Nat → Nat → List Char → List Core → Run (List Core)
  | 0, _, _, _ => Run.outOfFuel
  | fuel + 1, i, stat, s_cores =>
    match readline stat with
    | (none, _) => Run.ok s_cores
    | (some buf, stat') =>
      match pollLine (uninit i) s_num_cores (cstr buf) s_cores with
      | Run.ok cores' => pollLoop uninit s_num_cores fuel (i + 1) stat' cores'
      | Run.undefined => Run.undefined
      | Run.outOfFuel => Run.outOfFuel

/-- The function `poll_cores`, on the contents of `/proc/stat` (the file is
taken to open). -/
def poll_cores (uninit : Nat → Fields) (s_num_cores : Int) (stat : List Char)
    (s_cores : List Core) : Run (List Core) :=
  pollLoop uninit s_num_cores (stat.length + 1) 0 stat s_cores

/-! ## Doubles -/

/-- A finite non-negative binary64 value, `m * 2 ^ e`. -/
structure Dbl where
  m : Nat
  e : Int
  deriving DecidableEq, Repr

/-- The rational number a double stands for. -/
def Dbl.toRat (x : Dbl) : ℚ := (x.m : ℚ) * (2 : ℚ) ^ x.e

/-- Auxiliary to `log2`. -/
def ilog2 : Nat → Nat → Nat
  | 0, _ => 0
  | fuel + 1, n => if n < 2 then 0 else ilog2 fuel (n / 2) + 1

/-- The position of the leading bit of `n`: the largest `a` with
`2 ^ a ≤ n` (0 for `n = 0`). -/
def log2 (n : Nat) : Nat := ilog2 n n

/-- The quotient `n / d` rounded to the nearest integer, ties to even. -/
def roundHalfEven (n d : Nat) : Nat :=
  let q := n / d
  let r := n % d
  if 2 * r < d then q else if d < 2 * r then q + 1 else if q % 2 = 0 then q else q + 1

/-- The integer part of the binary logarithm of `n / d` (`n, d > 0`). -/
def floorLog (n d : Nat) : Int :=
  if d * 2 ^ log2 n ≤ n * 2 ^ log2 d then (log2 n : Int) - log2 d
  else (log2 n : Int) - log2 d - 1

/-- The quotient `n / (d * 2 ^ e)` rounded to the nearest integer, ties to
even. -/
def significand (n d : Nat) (e : Int) : Nat :=
  if 0 ≤ e then roundHalfEven n (d * 2 ^ e.toNat)
  else roundHalfEven (n * 2 ^ (-e).toNat) d

/-- The double nearest to the rational `n / d` (`d > 0`), ties to even: the
quotient is scaled to a 53-bit significand, which is rounded.  The exponent
is not bounded; every value the program forms lies between `1 / 100` and
`2 ^ 64 * 80`, inside the normal range of binary64. -/
def roundNearest (n d : Nat) : Dbl :=
  if n = 0 then ⟨0, 0⟩
  else
    let e : Int := floorLog n d - 52
    let mant := significand n d e
    if mant = 2 ^ 53 then ⟨2 ^ 52, e + 1⟩ else ⟨mant, e⟩

/-- Conversion of a `uint64_t` to `double`. -/
def ofU64 (n : Nat) : Dbl := roundNearest n 1

/-- The double division `x / k` by the double of a small integer `k`. -/
def divD (x : Dbl) (k : Nat) : Dbl :=
  if 0 ≤ x.e then roundNearest (x.m * 2 ^ x.e.toNat) k
  else roundNearest x.m (k * 2 ^ (-x.e).toNat)

/-- The double product `x * k` by the double of a small integer `k`. -/
def mulD (x : Dbl) (k : Nat) : Dbl :=
  if 0 ≤ x.e then roundNearest (x.m * 2 ^ x.e.toNat * k) 1
  else roundNearest (x.m * k) (2 ^ (-x.e).toNat)

/-- The integral part of a double. -/
def trunc (x : Dbl) : Nat :=
  if 0 ≤ x.e then x.m * 2 ^ x.e.toNat else x.m / 2 ^ (-x.e).toNat

/-- The conversion `(int) x` of a double: the integral part, undefined when
it is not a value of `int`. -/
def toInt (x : Dbl) : Run Int :=
  if (trunc x : Int) ≤ INT_MAX then Run.ok (trunc x : Int) else Run.undefined

/-! ## handlerDraw -/

/-- The constant `BAR_WIDTH`. -/
def BAR_WIDTH : Int := 20

/-- The constant `BAR_HEIGHT`. -/
def BAR_HEIGHT : Int := 80

/-- Subtraction of `uint64_t` values. -/
def sub64 (a b : Nat) : Nat :=
  (a + (U64 - b % U64)) % U64

/-- The double `n / 100.0` for a `uint64_t` value `n`. -/
def fraction (n : Nat) : Dbl :=
  divD (ofU64 n) 100

/-- The arguments `x, y, width, height` of one `uiDrawPathAddRectangle` call
(`int` values, which convert to `double` exactly). -/
structure Rect where
  x : Int
  y : Int
  w : Int
  h : Int
  deriving DecidableEq, Repr

/-- The two rectangles that `handlerDraw` fills for core `i` from the two
fractions: `x = i*BAR_WIDTH + 1`, `y = BAR_HEIGHT - (int)(cf * BAR_HEIGHT)`,
`sh = (int)(sf * BAR_HEIGHT)`, then the rectangles
`(x, y, BAR_WIDTH-2, BAR_HEIGHT - y)` and `(x, y-sh, BAR_WIDTH-2, sh)`. -/
def barRects (i : Nat) (cf sf : Dbl) : Run (Rect × Rect) :=
  if (i : Int) * BAR_WIDTH + 1 ≤ INT_MAX then
    let x := (i : Int) * BAR_WIDTH + 1
    match toInt (mulD cf BAR_HEIGHT.toNat) with
    | Run.ok t =>
      let y := BAR_HEIGHT - t
      match toInt (mulD sf BAR_HEIGHT.toNat) with
      | Run.ok sh =>
        if -INT_MAX - 1 ≤ y - sh then
          Run.ok (⟨x, y, BAR_WIDTH - 2, BAR_HEIGHT - y⟩, ⟨x, y - sh, BAR_WIDTH - 2, sh⟩)
        else Run.undefined
      | _ => Run.undefined
    | _ => Run.undefined
  else Run.undefined

/-- What `handlerDraw` computes and draws for a core: the values of the two
doubles `(cpudiff*POLLS_PER_SEC) / 100.0` and `(sysdiff*POLLS_PER_SEC) / 100.0`
(the product is a `uint64_t` product) and the rectangles of the two bars. -/
structure Sample where
  cpuFraction : ℚ
  systemFraction : ℚ
  bars : Run (Rect × Rect)
  deriving DecidableEq

/-- The body of the loop of `handlerDraw` for core `i`: `none` when the guard
`c->last.cpu > 0` fails and nothing is computed or drawn. -/
def drawCore (i : Nat) (c : Core) : Option Sample :=
  if c.last.cpu > 0 then
    let cpudiff := sub64 c.now.cpu c.last.cpu
    let sysdiff := sub64 c.now.sys c.last.sys
    let cf := fraction (cpudiff * POLLS_PER_SEC % U64)
    let sf := fraction (sysdiff * POLLS_PER_SEC % U64)
    some { cpuFraction := cf.toRat, systemFraction := sf.toRat, bars := barRects i cf sf }
  else none

/-- The loop of `handlerDraw` over the cores `0 .. s_num_cores - 1` (the
black background, which depends on no core, is left out). -/
def handlerDraw (s_num_cores : Int) (s_cores : List Core) : List (Option Sample) :=
  (List.range s_num_cores.toNat).map (fun i => (s_cores.get? i).bind (drawCore i))

/-! ## Global state, start-up, on_tick and on_closing -/

/-- The global variables of the program that the sampling engine uses, and
the number of redraw requests (`uiAreaQueueRedrawAll`) made so far. -/
structure Globals where
  s_num_cores : Int
  s_cores : List Core
  s_anim_quit : Bool
  redraws : Nat
  deriving DecidableEq

/-- A zero-filled `Core`, as `memset` leaves it. -/
def zeroCore : Core :=
  { last := { cpu := 0, sys := 0 }, now := { cpu := 0, sys := 0 } }

/-- The start of `main`: the cores are counted and the array is allocated
and zero-filled; the static flag `s_anim_quit` starts false.  `none` when
`count_cores` has no defined result. -/
def main (cpuinfo : List Char) : Option Globals :=
  match count_cores cpuinfo with
  | Run.ok n =>
    some { s_num_cores := n
           s_cores := List.replicate n.toNat zeroCore
           s_anim_quit := false
           redraws := 0 }
  | _ => none

/-- The callback `on_tick`, given what `/proc/stat` holds when it runs. -/
def on_tick (uninit : Nat → Fields) (stat : List Char) (g : Globals) : Run Globals :=
  if g.s_anim_quit then Run.ok g
  else
    match poll_cores uninit g.s_num_cores stat g.s_cores with
    | Run.ok cores' => Run.ok { g with s_cores := cores', redraws := g.redraws + 1 }
    | Run.undefined => Run.undefined
    | Run.outOfFuel => Run.outOfFuel

/-- The callback `on_closing`, as far as the sampling state goes: it sets the
quit flag. -/
def on_closing (g : Globals) : Globals :=
  { g with s_anim_quit := true }

/-- The callbacks that the UI thread runs one at a time.  The timer thread
itself touches none of the globals: it only posts `on_tick` to the UI thread,
which is a `tick` here. -/
inductive Event where
  | tick (uninit : Nat → Fields) (stat : List Char)
  | closing
  | draw

/-- One callback run on the UI thread; drawing only reads the state. -/
def step (g : Globals) : Event → Run Globals
  | Event.tick uninit stat => on_tick uninit stat g
  | Event.closing => Run.ok (on_closing g)
  | Event.draw => Run.ok g

/-- A sequence of callbacks run in order from the state `g`. -/
def runEvents : List Event → Globals → Run Globals
  | [], g => Run.ok g
  | e :: es, g =>
    match step g e with
    | Run.ok g' => runEvents es g'
    | Run.undefined => Run.undefined
    | Run.outOfFuel => Run.outOfFuel

/-! ## Shape of the input lines -/

/-- A space followed by the decimal numeral of `n`, in front of `rest`. -/
def field (n : Nat) (rest : List Char) : List Char :=
  ' ' :: (Nat.toDigits 10 n ++ rest)

/-- The seven values in decimal, each preceded by a space, in front of
`rest`. -/
def fieldsText (f : Fields) (rest : List Char) : List Char :=
  field f.user (field f.nice (field f.system (field f.idle
    (field f.iowait (field f.irq (field f.softirq rest))))))

/-- A well-formed per-core line of `/proc/stat`,
"cpu<k> user nice system idle iowait irq softirq", every number in decimal. -/
def coreLine (k : Nat) (f : Fields) : List Char :=
  "cpu".toList ++ (Nat.toDigits 10 k ++ fieldsText f [])

/-- The seven values are unsigned 64-bit values. -/
def Fields.inRange (f : Fields) : Prop :=
  f.user < U64 ∧ f.nice < U64 ∧ f.system < U64 ∧ f.idle < U64 ∧
    f.iowait < U64 ∧ f.irq < U64 ∧ f.softirq < U64

instance (f : Fields) : Decidable f.inRange := by
  unfold Fields.inRange; infer_instance

/-- The update that `poll_cores` makes to a core from the seven values. -/
def updateCore (c : Core) (f : Fields) : Core :=
  { last := c.now
    now := { cpu := (f.user + f.nice) % U64
             sys := (f.system + f.iowait + f.irq + f.softirq) % U64 } }

/-! ## The loop of poll_cores over a list of lines -/

/-- The loop body `pollLine` run over a list of lines (buffers as `readline`
returns them), the first one in iteration `i`. -/
def pollLines (uninit : Nat → Fields) (s_num_cores : Int) :
    Nat → List (List Char) → List Core → Run (List Core)
  | _, [], s_cores => Run.ok s_cores
  | i, buf :: bufs, s_cores =>
    match pollLine (uninit i) s_num_cores (cstr buf) s_cores with
    | Run.ok cores' => pollLines uninit s_num_cores (i + 1) bufs cores'
    | Run.undefined => Run.undefined
    | Run.outOfFuel => Run.outOfFuel

/-- The line `s` passes the per-core test of `poll_cores` and `atoi` reads the
core index `k` from it. -/
def addresses (s : List Char) (k : Nat) : Bool :=
  startswith s "cpu".toList && !startswith s "cpu ".toList && atoi (s.drop 3) == (k : Int)

/-! ## Lines of a file, prefixes and count_cores -/

theorem strstr_zero_iff (s pfx : List Char) :
    strstr s pfx = some 0 ↔ pfx.isPrefixOf s = true := by
  cases s with
  | nil => cases pfx <;> simp [strstr]
  | cons c cs =>
    by_cases h : pfx.isPrefixOf (c :: cs) = true
    · simp [strstr, h]
    · simp [strstr, h]

theorem startswith_eq (s pfx : List Char) : startswith s pfx = pfx.isPrefixOf s := by
  have h := strstr_zero_iff s pfx
  unfold startswith
  by_cases hp : pfx.isPrefixOf s = true
  · rw [hp]; simp [h.mpr hp]
  · have : ¬ strstr s pfx = some 0 := fun h0 => hp (h.mp h0)
    simp only [Bool.not_eq_true] at hp
    rw [hp]; simpa using this

theorem isPrefixOf_cstr (pfx : List Char) (hp : '\x00' ∉ pfx) (l : List Char) :
    pfx.isPrefixOf (cstr l) = pfx.isPrefixOf l := by
  induction pfx generalizing l with
  | nil => simp
  | cons p ps ih =>
    have hp0 : p ≠ '\x00' := fun h => hp (by simp [h])
    have hps : '\x00' ∉ ps := fun h => hp (by simp [h])
    cases l with
    | nil => simp [cstr]
    | cons c cs =>
      by_cases hc : c = '\x00'
      · subst hc
        simp [cstr, List.isPrefixOf, hp0]
      · have := ih hps cs
        simp only [cstr] at this ⊢
        have hc' : (c != '\x00') = true := by simpa using hc
        rw [List.takeWhile_cons, hc']
        simp [List.isPrefixOf, this]

theorem readlineLoop_spec (inp buf : List Char) :
    (readlineLoop inp buf = (buf ++ inp, true, []) ∧ inp.splitOn '\n' = [inp]) ∨
    ∃ l rest, readlineLoop inp buf = (buf ++ l, false, rest) ∧
      inp.splitOn '\n' = l :: rest.splitOn '\n' ∧ rest.length < inp.length ∧
      inp = l ++ '\n' :: rest ∧ '\n' ∉ l := by
  induction inp generalizing buf with
  | nil => left; simp [readlineLoop]
  | cons c cs ih =>
    by_cases hc : c = '\n'
    · right
      refine ⟨[], cs, ?_, ?_, ?_, ?_, ?_⟩
      · simp [readlineLoop, hc]
      · simp [List.splitOn, hc]
      · simp
      · simp [hc]
      · simp
    · rcases ih (buf ++ [c]) with ⟨h1, h2⟩ | ⟨l, rest, h1, h2, h3, h4, h5⟩
      · left
        refine ⟨by simp [readlineLoop, hc, h1], ?_⟩
        simp only [List.splitOn] at h2 ⊢
        simp [hc, h2]
      · right
        refine ⟨c :: l, rest, by simp [readlineLoop, hc, h1], ?_, ?_, ?_, ?_⟩
        · simp only [List.splitOn] at h2 ⊢
          simp [hc, h2]
        · simp; omega
        · simp [h4]
        · simp [hc, h5]; exact fun h => hc h.symm

theorem readline_cases (inp : List Char) :
    (inp = [] ∧ readline inp = (none, [])) ∨
    (inp ≠ [] ∧ readline inp = (some inp, []) ∧ inp.splitOn '\n' = [inp]) ∨
    ∃ l rest, readline inp = (some l, rest) ∧
      inp.splitOn '\n' = l :: rest.splitOn '\n' ∧ rest.length < inp.length ∧
      inp = l ++ '\n' :: rest ∧ '\n' ∉ l := by
  rcases readlineLoop_spec inp [] with ⟨h1, h2⟩ | ⟨l, rest, h1, h2, h3, h4, h5⟩
  · by_cases he : inp = []
    · left; subst he; exact ⟨rfl, rfl⟩
    · right; left
      refine ⟨he, ?_, h2⟩
      have hl : inp.length ≠ 0 := fun h => he (List.length_eq_zero.mp h)
      simp [readline, h1, hl]
  · right; right
    exact ⟨l, rest, by simp [readline, h1], h2, h3, h4, h5⟩

theorem countLoop_succ (fuel : Nat) (inp : List Char) (count : Int) :
    countLoop (fuel + 1) inp count =
      match readline inp with
      | (none, _) => Run.ok count
      | (some buf, cpuinfo') =>
        if startswith (cstr buf) "processor\t".toList then
          if count < INT_MAX then countLoop fuel cpuinfo' (count + 1) else Run.undefined
        else countLoop fuel cpuinfo' count := rfl

theorem countLoop_eq (fuel : Nat) : ∀ (inp : List Char) (count : Int), inp.length < fuel →
    0 ≤ count → count ≤ INT_MAX →
    countLoop fuel inp count =
      if count + ((inp.splitOn '\n').countP (fun l => "processor\t".toList.isPrefixOf l) : Nat)
          ≤ INT_MAX then
        Run.ok (count +
          ((inp.splitOn '\n').countP (fun l => "processor\t".toList.isPrefixOf l) : Nat))
      else Run.undefined := by
  induction fuel with
  | zero => intro inp count h; omega
  | succ fuel ih =>
    intro inp count hlen h0 hmax
    have hP : ∀ buf : List Char, startswith (cstr buf) "processor\t".toList
        = "processor\t".toList.isPrefixOf buf := by
      intro buf
      rw [startswith_eq, isPrefixOf_cstr _ (by decide)]
    have hnil : ∀ (f : Nat) (c : Int), countLoop (f + 1) [] c = Run.ok c := fun _ _ => rfl
    rcases readline_cases inp with ⟨h0', h1⟩ | ⟨h0', h1, h2⟩ | ⟨l, rest, h1, h2, h3, _, _⟩
    · subst h0'
      rw [hnil]
      simp [hmax]
    · have hpos : 0 < inp.length := List.length_pos.mpr h0'
      obtain ⟨f, rfl⟩ : ∃ f, fuel = f + 1 := ⟨fuel - 1, by omega⟩
      rw [countLoop_succ, h1, h2]
      simp only [hP, hnil, List.countP_cons, List.countP_nil]
      by_cases hp : "processor\t".toList.isPrefixOf inp = true
      · simp only [hp, if_true]
        by_cases hc : count < INT_MAX
        · have : count + ((0 + 1 : Nat) : Int) ≤ INT_MAX := by push_cast; omega
          simp only [hc, if_true, this]
          push_cast; rfl
        · have : ¬ count + ((0 + 1 : Nat) : Int) ≤ INT_MAX := by push_cast; omega
          simp only [hc, if_false, this]
      · have hp' : "processor\t".toList.isPrefixOf inp = false := by
          simpa only [Bool.not_eq_true] using hp
        simp only [hp', Bool.false_eq_true, if_false, Nat.cast_zero, add_zero, hmax, if_true]
    · rw [countLoop_succ, h1, h2]
      simp only [hP, List.countP_cons]
      by_cases hp : "processor\t".toList.isPrefixOf l = true
      · simp only [hp, if_true]
        by_cases hc : count < INT_MAX
        · simp only [hc, if_true]
          rw [ih rest (count + 1) (by omega) (by omega) (by omega)]
          push_cast
          simp only [add_assoc, add_comm (1 : Int)]
        · simp only [hc, if_false]
          have : ¬ count + ((List.countP (fun l => "processor\t".toList.isPrefixOf l)
              (List.splitOn '\n' rest) + 1 : Nat) : Int) ≤ INT_MAX := by push_cast; omega
          simp only [this, if_false]
      · simp only [hp, Bool.false_eq_true, if_false, add_zero]
        exact ih rest count (by omega) h0 hmax

theorem count_cores_eq (cpuinfo : List Char) :
    count_cores cpuinfo =
      if ((cpuinfo.splitOn '\n').countP (fun l => "processor\t".toList.isPrefixOf l) : Int)
          ≤ INT_MAX then
        Run.ok ((cpuinfo.splitOn '\n').countP (fun l => "processor\t".toList.isPrefixOf l) : Int)
      else Run.undefined := by
  unfold count_cores
  rw [countLoop_eq _ _ _ (Nat.lt_succ_self _) (le_refl _) (by decide)]
  simp

/-! ## Decimal numerals and the scanning functions -/


theorem digitChar_isdigit (m : Nat) (h : m < 10) :
    isdigit (Nat.digitChar m) = true ∧ digitVal (Nat.digitChar m) = m := by
  interval_cases m <;> decide

theorem isdigit_not_space (c : Char) (h : isdigit c = true) :
    isspace c = false ∧ c ≠ '-' ∧ c ≠ '+' ∧ c ≠ ' ' := by
  refine ⟨?_, ?_, ?_, ?_⟩
  · simp only [isspace, Bool.or_eq_false_iff, beq_eq_false_iff_ne]
    refine ⟨⟨⟨⟨⟨?_, ?_⟩, ?_⟩, ?_⟩, ?_⟩, ?_⟩ <;> (rintro rfl; revert h; decide)
  all_goals (rintro rfl; revert h; decide)

theorem toDigitsCore_spec (fuel : Nat) : ∀ (n : Nat) (ds : List Char), n < fuel →
    ∃ pre : List Char, Nat.toDigitsCore 10 fuel n ds = pre ++ ds ∧ pre ≠ [] ∧
      (∀ c ∈ pre, isdigit c = true) ∧
      ∀ (r : List Char) (acc cnt : Nat),
        readDigits (pre ++ r) acc cnt = readDigits r (acc * 10 ^ pre.length + n) (cnt + pre.length) := by
  induction fuel with
  | zero => intro n ds h; omega
  | succ fuel ih =>
    intro n ds hn
    have hd := digitChar_isdigit (n % 10) (Nat.mod_lt _ (by norm_num))
    by_cases h0 : n / 10 = 0
    · refine ⟨[Nat.digitChar (n % 10)], by simp [Nat.toDigitsCore, h0], by simp, ?_, ?_⟩
      · intro c hc; simp at hc; rw [hc]; exact hd.1
      · intro r acc cnt
        have hlt : n < 10 := by omega
        have hm := Nat.mod_eq_of_lt hlt
        rw [hm] at hd
        simp [readDigits, hm, hd.1, hd.2, Nat.mul_comm]
    · obtain ⟨pre, h1, h2, h3, h4⟩ := ih (n / 10) (Nat.digitChar (n % 10) :: ds) (by omega)
      refine ⟨pre ++ [Nat.digitChar (n % 10)], by simp [Nat.toDigitsCore, h0, h1], by simp, ?_, ?_⟩
      · intro c hc
        rcases List.mem_append.mp hc with hc | hc
        · exact h3 c hc
        · simp at hc; rw [hc]; exact hd.1
      · intro r acc cnt
        rw [List.append_assoc, h4]
        simp only [List.singleton_append, readDigits, hd.1, if_true, hd.2, List.length_append,
          List.length_singleton]
        congr 1
        · have := Nat.div_add_mod n 10
          rw [pow_succ]; nlinarith [this]

theorem toDigits_spec (n : Nat) :
    Nat.toDigits 10 n ≠ [] ∧ (∀ c ∈ Nat.toDigits 10 n, isdigit c = true) ∧
      ∀ (r : List Char), readDigits (Nat.toDigits 10 n ++ r) 0 0 =
        readDigits r n (Nat.toDigits 10 n).length := by
  obtain ⟨pre, h1, h2, h3, h4⟩ := toDigitsCore_spec (n + 1) n [] (Nat.lt_succ_self n)
  have he : Nat.toDigits 10 n = pre := by simp [Nat.toDigits, h1]
  rw [he]
  refine ⟨h2, h3, ?_⟩
  intro r
  rw [h4]; simp
theorem readDigits_stop (r : List Char) (hr : ∀ c ∈ r.head?, isdigit c = false)
    (acc cnt : Nat) : readDigits r acc cnt = (acc, cnt, r) := by
  cases r with
  | nil => rfl
  | cons c cs =>
    have : isdigit c = false := hr c (by simp)
    simp [readDigits, this]

theorem skipSpace_digit (c : Char) (cs : List Char) (h : isdigit c = true) :
    skipSpace (c :: cs) = c :: cs ∧ readSign (c :: cs) = (false, c :: cs) := by
  obtain ⟨h1, h2, h3, _⟩ := isdigit_not_space c h
  refine ⟨by simp [skipSpace, h1], ?_⟩
  unfold readSign
  split
  · rename_i heq; simp at heq; exact absurd heq.1 h2
  · rename_i heq; simp at heq; exact absurd heq.1 h3
  · rfl

theorem toDigits_head (n : Nat) (r : List Char) :
    ∃ c cs, Nat.toDigits 10 n ++ r = c :: cs ∧ isdigit c = true := by
  obtain ⟨h1, h2, _⟩ := toDigits_spec n
  cases hd : Nat.toDigits 10 n with
  | nil => exact absurd hd h1
  | cons c cs => exact ⟨c, cs ++ r, by simp, h2 c (by simp [hd])⟩

theorem scanU64_field (n : Nat) (hn : n < U64) (r : List Char)
    (hr : ∀ c ∈ r.head?, isdigit c = false) :
    scanU64 (' ' :: (Nat.toDigits 10 n ++ r)) = some (n, r) := by
  obtain ⟨h1, _, h3⟩ := toDigits_spec n
  obtain ⟨c, cs, hc, hdig⟩ := toDigits_head n r
  have hs := skipSpace_digit c cs hdig
  have hlen : (Nat.toDigits 10 n).length ≠ 0 := fun h => h1 (List.length_eq_zero.mp h)
  have hsp : skipSpace (' ' :: (Nat.toDigits 10 n ++ r)) = Nat.toDigits 10 n ++ r := by
    have : skipSpace (' ' :: (Nat.toDigits 10 n ++ r)) = skipSpace (Nat.toDigits 10 n ++ r) := by
      simp [skipSpace, isspace]
    rw [this, hc]; exact hs.1
  have hsg : readSign (Nat.toDigits 10 n ++ r) = (false, Nat.toDigits 10 n ++ r) := by
    rw [hc]; exact hs.2
  unfold scanU64
  rw [hsp, hsg]
  simp only [h3 r, readDigits_stop r hr]
  simp [hlen, Nat.not_le.mpr hn]

theorem atoi_digits (k : Nat) (hk : k < 2 ^ 31) (r : List Char)
    (hr : ∀ c ∈ r.head?, isdigit c = false) :
    atoi (Nat.toDigits 10 k ++ r) = (k : Int) := by
  obtain ⟨_, _, h3⟩ := toDigits_spec k
  obtain ⟨c, cs, hc, hdig⟩ := toDigits_head k r
  have hs := skipSpace_digit c cs hdig
  have hsp : skipSpace (Nat.toDigits 10 k ++ r) = Nat.toDigits 10 k ++ r := by
    rw [hc]; exact hs.1
  have hsg : readSign (Nat.toDigits 10 k ++ r) = (false, Nat.toDigits 10 k ++ r) := by
    rw [hc]; exact hs.2
  unfold atoi strtol
  rw [hsp, hsg]
  simp only [h3 r, readDigits_stop r hr]
  simp only [toInt32, Bool.false_eq_true, if_false]
  have : min (k : Int) (2 ^ 63 - 1) = k := by
    apply min_eq_left; have : (k : Int) < 2 ^ 31 := by exact_mod_cast hk
    omega
  rw [this]
  have : (k : Int) < 2 ^ 31 := by exact_mod_cast hk
  omega

theorem strstr_space (pre r : List Char) (hpre : ∀ c ∈ pre, c ≠ ' ') :
    strstr (pre ++ ' ' :: r) " ".toList = some pre.length := by
  have hsp : " ".toList = [' '] := rfl
  rw [hsp]
  induction pre with
  | nil => simp [strstr, List.isPrefixOf]
  | cons c cs ih =>
    have hc : c ≠ ' ' := hpre c (by simp)
    have := ih (fun d hd => hpre d (by simp [hd]))
    have hne : (' ' == c) = false := by simpa using fun h => hc h.symm
    simp [strstr, List.isPrefixOf, hne, this]

theorem field_head (n : Nat) (r : List Char) :
    ∀ c ∈ (field n r).head?, isdigit c = false := by
  intro c hc; simp [field] at hc; subst hc; decide

theorem sscanf7_fields (f : Fields) (hf : f.inRange) (tail : List Char)
    (htail : ∀ c ∈ tail.head?, isdigit c = false) (init : Fields) :
    sscanf7 (fieldsText f tail) init = f := by
  obtain ⟨h1, h2, h3, h4, h5, h6, h7⟩ := hf
  have hs : ∀ (n : Nat), n < U64 → ∀ r : List Char, (∀ c ∈ r.head?, isdigit c = false) →
      scanU64 (field n r) = some (n, r) := fun n hn r hr => scanU64_field n hn r hr
  unfold sscanf7 fieldsText
  rw [hs _ h1 _ (field_head _ _)]; dsimp only
  rw [hs _ h2 _ (field_head _ _)]; dsimp only
  rw [hs _ h3 _ (field_head _ _)]; dsimp only
  rw [hs _ h4 _ (field_head _ _)]; dsimp only
  rw [hs _ h5 _ (field_head _ _)]; dsimp only
  rw [hs _ h6 _ (field_head _ _)]; dsimp only
  rw [hs _ h7 _ htail]

theorem coreLine_append (k : Nat) (f : Fields) (tail : List Char) :
    coreLine k f ++ tail = 'c' :: 'p' :: 'u' :: (Nat.toDigits 10 k ++ fieldsText f tail) := by
  simp [coreLine, fieldsText, field, List.append_assoc]

theorem pollLine_coreLine (uninit : Fields) (N k : Nat) (hk : k < N) (hN : N < 2 ^ 31)
    (cores : List Core) (hlen : cores.length = N) (f : Fields) (hf : f.inRange)
    (tail : List Char) (htail : ∀ c ∈ tail.head?, isdigit c = false) :
    pollLine uninit (N : Int) (coreLine k f ++ tail) cores =
      Run.ok (cores.set k (updateCore (cores.get ⟨k, hlen ▸ hk⟩) f)) := by
  rw [coreLine_append]
  have hscan : sscanf7 (fieldsText f tail) uninit = f := sscanf7_fields f hf tail htail uninit
  have hRhead : ∀ c ∈ (fieldsText f tail).head?, isdigit c = false := field_head _ _
  obtain ⟨_, hdig, _⟩ := toDigits_spec k
  obtain ⟨c, cs, hc, hcd⟩ := toDigits_head k (fieldsText f tail)
  have hatoi : atoi (Nat.toDigits 10 k ++ fieldsText f tail) = (k : Int) :=
    atoi_digits k (by omega) _ hRhead
  have h1 : startswith ('c' :: 'p' :: 'u' :: (Nat.toDigits 10 k ++ fieldsText f tail))
      "cpu".toList = true := by
    rw [startswith_eq]; simp [List.isPrefixOf]
  have h2 : startswith ('c' :: 'p' :: 'u' :: (Nat.toDigits 10 k ++ fieldsText f tail))
      "cpu ".toList = false := by
    rw [startswith_eq, hc]
    have : (' ' == c) = false := by
      simpa using fun h => (isdigit_not_space c hcd).2.2.2 h.symm
    simp [List.isPrefixOf, this]
  have h3 : strstr ('c' :: 'p' :: 'u' :: (Nat.toDigits 10 k ++ fieldsText f tail)) " ".toList
      = some (3 + (Nat.toDigits 10 k).length) := by
    have := strstr_space ('c' :: 'p' :: 'u' :: Nat.toDigits 10 k)
      (fieldsText f tail).tail (by
        intro d hd
        simp only [List.mem_cons] at hd
        rcases hd with rfl | rfl | rfl | hd
        · decide
        · decide
        · decide
        · exact (isdigit_not_space d (hdig d hd)).2.2.2)
    have he : fieldsText f tail = ' ' :: (fieldsText f tail).tail := rfl
    rw [he]
    simp only [List.cons_append] at this
    rw [this]; simp; omega
  have hdrop : List.drop (3 + (Nat.toDigits 10 k).length)
      ('c' :: 'p' :: 'u' :: (Nat.toDigits 10 k ++ fieldsText f tail)) = fieldsText f tail := by
    rw [Nat.add_comm]; simp [List.drop_append]
  have hget : cores.get? k = some (cores.get ⟨k, hlen ▸ hk⟩) := List.get?_eq_get _
  unfold pollLine
  simp only [h1, h2, List.drop_succ_cons, List.drop_zero, hatoi, Bool.not_false, Bool.and_self,
    if_true, Int.toNat_ofNat, hget, h3, hdrop, hscan]
  have hk' : (k : Int) < (N : Int) := by exact_mod_cast hk
  simp [hk', updateCore]

/-! ## The loop of poll_cores as a fold over the lines of the file -/

theorem pollLine_nil (u : Fields) (N : Int) (cores : List Core) :
    pollLine u N [] cores = Run.ok cores := by
  simp [pollLine, startswith, strstr]

theorem pollLoop_eq (uninit : Nat → Fields) (N : Int) (fuel : Nat) :
    ∀ (inp : List Char) (i : Nat) (cores : List Core), inp.length < fuel →
      pollLoop uninit N fuel i inp cores = pollLines uninit N i (inp.splitOn '\n') cores := by
  induction fuel with
  | zero => intro inp i cores h; omega
  | succ fuel ih =>
    intro inp i cores hlen
    rcases readline_cases inp with ⟨h0, h1⟩ | ⟨h0, h1, h2⟩ | ⟨l, rest, h1, h2, h3, _, _⟩
    · subst h0
      simp [pollLoop, h1, pollLines, cstr, pollLine_nil]
    · have hpos : 0 < inp.length := List.length_pos.mpr h0
      obtain ⟨f, rfl⟩ : ∃ f, fuel = f + 1 := ⟨fuel - 1, by omega⟩
      have hnil : readline [] = (none, []) := rfl
      simp only [pollLoop, h1, h2, pollLines]
      cases pollLine (uninit i) N (cstr inp) cores <;> simp [hnil]
    · simp only [pollLoop, h1, h2, pollLines]
      cases pollLine (uninit i) N (cstr l) cores with
      | ok c' => exact ih rest (i + 1) c' (by omega)
      | undefined => rfl
      | outOfFuel => rfl

theorem poll_cores_eq_pollLines (uninit : Nat → Fields) (N : Int) (stat : List Char)
    (cores : List Core) :
    poll_cores uninit N stat cores = pollLines uninit N 0 (stat.splitOn '\n') cores :=
  pollLoop_eq uninit N _ stat 0 cores (Nat.lt_succ_self _)

theorem pollLines_shift (uninit : Nat → Fields) (N : Int) (ls : List (List Char)) :
    ∀ (i : Nat) (cores : List Core),
      pollLines uninit N (i + 1) ls cores = pollLines (fun j => uninit (j + 1)) N i ls cores := by
  induction ls with
  | nil => intro i cores; rfl
  | cons l ls ih =>
    intro i cores
    simp only [pollLines]
    cases pollLine (uninit (i + 1)) N (cstr l) cores with
    | ok c' => exact ih (i + 1) c'
    | undefined => rfl
    | outOfFuel => rfl

theorem splitOn_line (l rest : List Char) (hl : '\n' ∉ l) :
    (l ++ '\n' :: rest).splitOn '\n' = l :: rest.splitOn '\n' := by
  induction l with
  | nil => simp [List.splitOn]
  | cons c cs ih =>
    have hc : c ≠ '\n' := fun h => hl (by simp [h])
    have := ih (fun h => hl (by simp [h]))
    simp only [List.splitOn] at this ⊢
    simp [hc, this]

theorem cstr_eq_self (l : List Char) (hl : '\x00' ∉ l) : cstr l = l := by
  unfold cstr
  rw [List.takeWhile_eq_self_iff]
  intro c hc
  simpa using fun h : c = '\x00' => hl (h ▸ hc)

theorem poll_cores_first_line (uninit : Nat → Fields) (N : Int) (l rest : List Char)
    (hl : '\n' ∉ l) (cores : List Core) :
    poll_cores uninit N (l ++ '\n' :: rest) cores =
      match pollLine (uninit 0) N (cstr l) cores with
      | Run.ok cores' => poll_cores (fun j => uninit (j + 1)) N rest cores'
      | Run.undefined => Run.undefined
      | Run.outOfFuel => Run.outOfFuel := by
  rw [poll_cores_eq_pollLines, splitOn_line l rest hl]
  simp only [pollLines]
  cases pollLine (uninit 0) N (cstr l) cores with
  | ok c' => simp only; rw [poll_cores_eq_pollLines]; exact pollLines_shift uninit N _ 0 c'
  | undefined => rfl
  | outOfFuel => rfl

/-! ## What one line can change -/

theorem strstr_space_of_mem (s : List Char) (h : ' ' ∈ s) :
    ∃ off, strstr s " ".toList = some off := by
  have hsp : " ".toList = [' '] := rfl
  rw [hsp]
  induction s with
  | nil => simp at h
  | cons c cs ih =>
    by_cases hc : c = ' '
    · exact ⟨0, by simp [strstr, List.isPrefixOf, hc]⟩
    · have hm : ' ' ∈ cs := by
        rcases List.mem_cons.mp h with h | h
        · exact absurd h.symm hc
        · exact h
      obtain ⟨off, ho⟩ := ih hm
      have hne : (' ' == c) = false := by simpa using fun h => hc h.symm
      exact ⟨off + 1, by simp [strstr, List.isPrefixOf, hne, ho]⟩

theorem pollLine_no_guard (u : Fields) (N : Int) (s : List Char) (cores : List Core)
    (hg : ¬ (startswith s "cpu".toList && !startswith s "cpu ".toList) = true) :
    pollLine u N s cores = Run.ok cores := by
  unfold pollLine; rw [if_neg hg]

theorem pollLine_no_range (u : Fields) (N : Int) (s : List Char) (cores : List Core)
    (hr : ¬ (decide (atoi (s.drop 3) ≥ 0) && decide (atoi (s.drop 3) < N)) = true) :
    pollLine u N s cores = Run.ok cores := by
  unfold pollLine
  split
  · dsimp only; rw [if_neg hr]
  · rfl

theorem pollLine_in_range (u : Fields) (N : Int) (s : List Char) (cores : List Core)
    (hg : (startswith s "cpu".toList && !startswith s "cpu ".toList) = true)
    (hr : (decide (atoi (s.drop 3) ≥ 0) && decide (atoi (s.drop 3) < N)) = true) :
    pollLine u N s cores =
      match cores.get? (atoi (s.drop 3)).toNat with
      | none => Run.undefined
      | some c =>
        match strstr s " ".toList with
        | none => Run.undefined
        | some off =>
          Run.ok (cores.set (atoi (s.drop 3)).toNat (updateCore c (sscanf7 (s.drop off) u))) := by
  unfold pollLine; rw [if_pos hg]; dsimp only; rw [if_pos hr]; rfl

theorem pollLine_frame (u : Fields) (N : Int) (s : List Char) (cores cores' : List Core)
    (h : pollLine u N s cores = Run.ok cores') :
    cores'.length = cores.length ∧
      ∀ j : Nat, addresses s j = false → cores'.get? j = cores.get? j := by
  by_cases hg : (startswith s "cpu".toList && !startswith s "cpu ".toList) = true
  · by_cases hr : (decide (atoi (s.drop 3) ≥ 0) && decide (atoi (s.drop 3) < N)) = true
    · rw [pollLine_in_range u N s cores hg hr] at h
      cases hget : cores.get? (atoi (s.drop 3)).toNat with
      | none => rw [hget] at h; exact Run.noConfusion h
      | some c =>
        rw [hget] at h
        cases hoff : strstr s " ".toList with
        | none => rw [hoff] at h; exact Run.noConfusion h
        | some off =>
          rw [hoff] at h
          simp only [Run.ok.injEq] at h
          subst h
          refine ⟨by simp, ?_⟩
          intro j hj
          have hne : (atoi (List.drop 3 s)).toNat ≠ j := by
            intro he
            simp only [Bool.and_eq_true, decide_eq_true_eq] at hr
            have : atoi (List.drop 3 s) = (j : Int) := by omega
            rw [addresses, hg, this] at hj
            simp at hj
          simp [List.get?_eq_getElem?, List.getElem?_set, hne]
    · rw [pollLine_no_range u N s cores hr] at h
      simp only [Run.ok.injEq] at h
      subst h; exact ⟨rfl, fun _ _ => rfl⟩
  · rw [pollLine_no_guard u N s cores hg] at h
    simp only [Run.ok.injEq] at h
    subst h; exact ⟨rfl, fun _ _ => rfl⟩

theorem pollLine_out_of_range (u : Fields) (N : Int) (s : List Char) (cores : List Core)
    (h : atoi (s.drop 3) < 0 ∨ N ≤ atoi (s.drop 3)) :
    pollLine u N s cores = Run.ok cores := by
  apply pollLine_no_range
  simp only [Bool.and_eq_true, decide_eq_true_eq]
  omega

theorem pollLine_defined (u : Fields) (N : Nat) (s : List Char) (cores : List Core)
    (hlen : cores.length = N)
    (hsp : ∀ k < N, addresses s k = true → ' ' ∈ s) :
    ∃ cores', pollLine u (N : Int) s cores = Run.ok cores' := by
  by_cases hg : (startswith s "cpu".toList && !startswith s "cpu ".toList) = true
  · by_cases hr : (decide (atoi (s.drop 3) ≥ 0) && decide (atoi (s.drop 3) < (N : Int))) = true
    · have hr' := hr
      simp only [Bool.and_eq_true, decide_eq_true_eq] at hr'
      have hk : (atoi (List.drop 3 s)).toNat < N := by omega
      have hadd : addresses s (atoi (List.drop 3 s)).toNat = true := by
        have : ((atoi (List.drop 3 s)).toNat : Int) = atoi (List.drop 3 s) := by omega
        rw [addresses, hg, this]; simp
      obtain ⟨off, hoff⟩ := strstr_space_of_mem s (hsp _ hk hadd)
      have hget : cores.get? (atoi (List.drop 3 s)).toNat
          = some (cores.get ⟨(atoi (List.drop 3 s)).toNat, hlen ▸ hk⟩) := List.get?_eq_get _
      rw [pollLine_in_range u N s cores hg hr, hget, hoff]
      exact ⟨_, rfl⟩
    · exact ⟨cores, pollLine_no_range u N s cores hr⟩
  · exact ⟨cores, pollLine_no_guard u N s cores hg⟩

theorem pollLines_frame (uninit : Nat → Fields) (N : Nat) (ls : List (List Char)) :
    ∀ (i : Nat) (cores : List Core), cores.length = N →
      (∀ l ∈ ls, ∀ k < N, addresses (cstr l) k = true → ' ' ∈ cstr l) →
      ∃ cores', pollLines uninit (N : Int) i ls cores = Run.ok cores' ∧ cores'.length = N ∧
        ∀ k : Nat, (∀ l ∈ ls, addresses (cstr l) k = false) → cores'.get? k = cores.get? k := by
  induction ls with
  | nil => intro i cores hlen _; exact ⟨cores, rfl, hlen, fun _ _ => rfl⟩
  | cons l ls ih =>
    intro i cores hlen hsp
    obtain ⟨c1, h1⟩ := pollLine_defined (uninit i) N (cstr l) cores hlen
      (hsp l (by simp))
    obtain ⟨hl1, hf1⟩ := pollLine_frame _ _ _ _ _ h1
    obtain ⟨c2, h2, hl2, hf2⟩ := ih (i + 1) c1 (hl1.trans hlen)
      (fun l' hl' => hsp l' (by simp [hl']))
    refine ⟨c2, by simp only [pollLines, h1]; exact h2, hl2, ?_⟩
    intro k hk
    rw [hf2 k (fun l' hl' => hk l' (by simp [hl'])), hf1 k (hk l (by simp))]

theorem addresses_no_guard (s : List Char) (k : Nat)
    (h : "cpu".toList.isPrefixOf s = false ∨ "cpu ".toList.isPrefixOf s = true) :
    addresses s k = false := by
  unfold addresses
  rw [startswith_eq, startswith_eq]
  rcases h with h | h <;> rw [h]
  · simp only [Bool.false_and]
  · simp only [Bool.not_true, Bool.and_false, Bool.false_and]

theorem atoi_neg_digits (j : Nat) (hj : 0 < j) (hj' : j ≤ 2 ^ 31) (r : List Char)
    (hr : ∀ c ∈ r.head?, isdigit c = false) :
    atoi ('-' :: (Nat.toDigits 10 j ++ r)) = -(j : Int) := by
  obtain ⟨_, _, h3⟩ := toDigits_spec j
  have hsp : skipSpace ('-' :: (Nat.toDigits 10 j ++ r)) = '-' :: (Nat.toDigits 10 j ++ r) := by
    simp [skipSpace, isspace]
  have hsg : readSign ('-' :: (Nat.toDigits 10 j ++ r)) = (true, Nat.toDigits 10 j ++ r) := rfl
  unfold atoi strtol
  rw [hsp, hsg]
  simp only [h3 r, readDigits_stop r hr]
  simp only [toInt32, if_true]
  have hb : (j : Int) ≤ 2 ^ 31 := by exact_mod_cast hj'
  have hp : (0 : Int) < j := by exact_mod_cast hj
  have : max (-(j : Int)) (-2 ^ 63) = -(j : Int) := by
    apply max_eq_left; omega
  rw [this]
  omega

theorem addresses_index (j : Nat) (hj : j < 2 ^ 31) (rest : List Char) (k : Nat) (hk : j ≠ k) :
    addresses ("cpu".toList ++ (Nat.toDigits 10 j ++ ' ' :: rest)) k = false := by
  have hat : atoi (("cpu".toList ++ (Nat.toDigits 10 j ++ ' ' :: rest)).drop 3) = (j : Int) :=
    atoi_digits j hj (' ' :: rest) (by intro c hc; simp at hc; subst hc; decide)
  unfold addresses
  rw [hat]
  have : ((j : Int) == (k : Int)) = false := by
    simpa using hk
  rw [this, Bool.and_false]

theorem addresses_negative (j : Nat) (hj : 0 < j) (hj' : j ≤ 2 ^ 31) (rest : List Char)
    (k : Nat) :
    addresses ("cpu-".toList ++ (Nat.toDigits 10 j ++ ' ' :: rest)) k = false := by
  have hat : atoi (("cpu-".toList ++ (Nat.toDigits 10 j ++ ' ' :: rest)).drop 3) = -(j : Int) :=
    atoi_neg_digits j hj hj' (' ' :: rest) (by intro c hc; simp at hc; subst hc; decide)
  unfold addresses
  rw [hat]
  have : (-(j : Int) == (k : Int)) = false := by
    simp only [beq_eq_false_iff_ne, ne_eq]
    omega
  rw [this, Bool.and_false]

/-! ## Well-formed lines contain neither a newline nor a NUL -/

theorem coreLine_chars (k : Nat) (f : Fields) :
    '\n' ∉ coreLine k f ∧ '\x00' ∉ coreLine k f := by
  have hd : ∀ (n : Nat) (c : Char), c ∈ Nat.toDigits 10 n → c ≠ '\n' ∧ c ≠ '\x00' := by
    intro n c hc
    have h := (toDigits_spec n).2.1 c hc
    constructor <;> (rintro rfl; revert h; decide)
  have key : ∀ c ∈ coreLine k f, c ≠ '\n' ∧ c ≠ '\x00' := by
    intro c hc
    simp only [coreLine, fieldsText, field, List.mem_append, List.mem_cons] at hc
    have hsp : (' ' : Char) ≠ '\n' ∧ (' ' : Char) ≠ '\x00' := by decide
    rcases hc with hc | hc | hc | hc | hc | hc | hc | hc | hc | hc | hc | hc | hc | hc | hc | hc | hc
    · have : c = 'c' ∨ c = 'p' ∨ c = 'u' := by simpa using hc
      rcases this with rfl | rfl | rfl <;> decide
    all_goals first
      | exact hd _ c hc
      | (rw [hc]; exact hsp)
      | (simp at hc)
  exact ⟨fun h => (key _ h).1 rfl, fun h => (key _ h).2 rfl⟩


/-! ## Rounding to the nearest double -/

theorem ilog2_spec (fuel : Nat) : ∀ n : Nat, n ≤ fuel → 1 ≤ n →
    2 ^ ilog2 fuel n ≤ n ∧ n < 2 ^ (ilog2 fuel n + 1) := by
  induction fuel with
  | zero => intro n h1 h2; omega
  | succ fuel ih =>
    intro n h1 h2
    by_cases h : n < 2
    · have : n = 1 := by omega
      subst this
      simp [ilog2]
    · obtain ⟨i1, i2⟩ := ih (n / 2) (by omega) (by omega)
      simp only [ilog2, h, if_false]
      rw [pow_succ, pow_succ]
      rw [pow_succ] at i2
      constructor <;> omega

theorem log2_spec (n : Nat) (h : 1 ≤ n) : 2 ^ log2 n ≤ n ∧ n < 2 ^ (log2 n + 1) :=
  ilog2_spec n n (le_refl n) h

theorem roundHalfEven_ge (n d : Nat) : n / d ≤ roundHalfEven n d := by
  unfold roundHalfEven
  dsimp only
  split
  · exact le_refl _
  · split
    · omega
    · split <;> omega

theorem zpow_toNat_eq (e : Int) (h : 0 ≤ e) : (2 : ℚ) ^ e = ((2 ^ e.toNat : Nat) : ℚ) := by
  obtain ⟨k, rfl⟩ := Int.eq_ofNat_of_zero_le h
  simp

theorem zpow_neg_toNat_eq (e : Int) (h : e < 0) :
    (2 : ℚ) ^ e = 1 / ((2 ^ (-e).toNat : Nat) : ℚ) := by
  have h' := zpow_toNat_eq (-e) (by omega)
  rw [← h', zpow_neg]
  simp

/-- The exponent that `roundNearest` computes is the integer part of the
binary logarithm of the quotient. -/
theorem floorLog_spec (n d : Nat) (hn : 1 ≤ n) (hd : 1 ≤ d) :
    (2 : ℚ) ^ floorLog n d ≤ (n : ℚ) / d ∧ (n : ℚ) / d < (2 : ℚ) ^ (floorLog n d + 1) := by
  obtain ⟨a1, a2⟩ := log2_spec n hn
  obtain ⟨b1, b2⟩ := log2_spec d hd
  have hdq : (0 : ℚ) < d := by exact_mod_cast hd
  have h2 : (2 : ℚ) ≠ 0 := by norm_num
  have ea : ∀ k : Nat, (2 : ℚ) ^ (k : Int) = ((2 ^ k : Nat) : ℚ) := by intro k; simp
  unfold floorLog
  split
  · rename_i hc
    constructor
    · rw [zpow_sub₀ h2, ea, ea, div_le_div_iff₀ (by positivity) hdq]
      have : 2 ^ log2 n * d ≤ n * 2 ^ log2 d := by rwa [Nat.mul_comm (2 ^ log2 n)]
      exact_mod_cast this
    · have : (log2 n : Int) - log2 d + 1 = ((log2 n + 1 : Nat) : Int) - log2 d := by push_cast; ring
      rw [this, zpow_sub₀ h2, ea, ea, div_lt_div_iff₀ hdq (by positivity)]
      have : n * 2 ^ log2 d < 2 ^ (log2 n + 1) * d :=
        calc n * 2 ^ log2 d < 2 ^ (log2 n + 1) * 2 ^ log2 d :=
              Nat.mul_lt_mul_of_pos_right a2 (by positivity)
          _ ≤ 2 ^ (log2 n + 1) * d := Nat.mul_le_mul_left _ b1
      exact_mod_cast this
  · rename_i hc
    constructor
    · have : (log2 n : Int) - log2 d - 1 = (log2 n : Int) - ((log2 d + 1 : Nat) : Int) := by
        push_cast; ring
      rw [this, zpow_sub₀ h2, ea, ea, div_le_div_iff₀ (by positivity) hdq]
      have : 2 ^ log2 n * d ≤ n * 2 ^ (log2 d + 1) :=
        Nat.mul_le_mul a1 (le_of_lt b2)
      exact_mod_cast this
    · have : (log2 n : Int) - log2 d - 1 + 1 = (log2 n : Int) - log2 d := by ring
      rw [this, zpow_sub₀ h2, ea, ea, div_lt_div_iff₀ hdq (by positivity)]
      have : n * 2 ^ log2 d < d * 2 ^ log2 n := Nat.lt_of_not_le hc
      have : n * 2 ^ log2 d < 2 ^ log2 n * d := by rwa [Nat.mul_comm (2 ^ log2 n)]
      exact_mod_cast this
theorem significand_ge (n d : Nat) (hd : 1 ≤ d) (e : Int)
    (h : (2 : ℚ) ^ (e + 52) ≤ (n : ℚ) / d) : 2 ^ 52 ≤ significand n d e := by
  have hdq : (0 : ℚ) < d := by exact_mod_cast hd
  have h2 : (2 : ℚ) ≠ 0 := by norm_num
  rw [zpow_add₀ h2, le_div_iff₀ hdq] at h
  unfold significand
  split
  · rename_i he
    rw [zpow_toNat_eq e he] at h
    have h' : 2 ^ e.toNat * 2 ^ 52 * d ≤ n := by exact_mod_cast h
    refine le_trans ?_ (roundHalfEven_ge _ _)
    rw [Nat.le_div_iff_mul_le (by positivity)]
    calc 2 ^ 52 * (d * 2 ^ e.toNat) = 2 ^ e.toNat * 2 ^ 52 * d := by ring
      _ ≤ n := h'
  · rename_i he
    rw [zpow_neg_toNat_eq e (by omega)] at h
    have hp : (0 : ℚ) < ((2 ^ (-e).toNat : Nat) : ℚ) := by positivity
    have h' : 2 ^ 52 * d ≤ n * 2 ^ (-e).toNat := by
      have : (2 : ℚ) ^ (52 : Int) * d ≤ (n : ℚ) * ((2 ^ (-e).toNat : Nat) : ℚ) := by
        have := mul_le_mul_of_nonneg_right h (le_of_lt hp)
        calc (2 : ℚ) ^ (52 : Int) * d
            = 1 / ((2 ^ (-e).toNat : Nat) : ℚ) * 2 ^ (52 : Int) * d * ((2 ^ (-e).toNat : Nat) : ℚ) := by
              field_simp
          _ ≤ (n : ℚ) * ((2 ^ (-e).toNat : Nat) : ℚ) := this
      have e52 : (2 : ℚ) ^ (52 : Int) = ((2 ^ 52 : Nat) : ℚ) := by norm_num
      rw [e52] at this
      exact_mod_cast this
    refine le_trans ?_ (roundHalfEven_ge _ _)
    rw [Nat.le_div_iff_mul_le (by omega)]
    exact h'

theorem roundNearest_toRat (n d : Nat) (hn : n ≠ 0) :
    (roundNearest n d).toRat =
      (significand n d (floorLog n d - 52) : ℚ) * (2 : ℚ) ^ (floorLog n d - 52) := by
  unfold roundNearest
  rw [if_neg hn]
  dsimp only
  split
  · rename_i hm
    rw [hm]
    simp only [Dbl.toRat]
    rw [zpow_add₀ (by norm_num : (2 : ℚ) ≠ 0)]
    push_cast
    ring
  · rfl

theorem roundNearest_lower (n d : Nat) (hd : 1 ≤ d) (k : Int)
    (h : (2 : ℚ) ^ k ≤ (n : ℚ) / d) : (2 : ℚ) ^ k ≤ (roundNearest n d).toRat := by
  have hn : 1 ≤ n := by
    rcases Nat.eq_zero_or_pos n with h0 | h0
    · subst h0
      have : (0 : ℚ) < (2 : ℚ) ^ k := by positivity
      simp at h
      linarith
    · exact h0
  obtain ⟨f1, f2⟩ := floorLog_spec n d hn hd
  have hk : k ≤ floorLog n d := by
    have : (2 : ℚ) ^ k < (2 : ℚ) ^ (floorLog n d + 1) := lt_of_le_of_lt h f2
    have := (zpow_lt_zpow_iff_right₀ (by norm_num : (1 : ℚ) < 2)).mp this
    omega
  have hs : 2 ^ 52 ≤ significand n d (floorLog n d - 52) :=
    significand_ge n d hd _ (by rw [sub_add_cancel]; exact f1)
  rw [roundNearest_toRat n d (by omega)]
  have hsq : ((2 : ℚ) ^ (52 : Int)) ≤ (significand n d (floorLog n d - 52) : ℚ) := by
    have : ((2 ^ 52 : Nat) : ℚ) ≤ (significand n d (floorLog n d - 52) : ℚ) := by
      exact_mod_cast hs
    have e52 : (2 : ℚ) ^ (52 : Int) = ((2 ^ 52 : Nat) : ℚ) := by norm_num
    rw [e52]; exact this
  calc (2 : ℚ) ^ k ≤ (2 : ℚ) ^ floorLog n d :=
        zpow_le_zpow_right₀ (by norm_num) hk
    _ = (2 : ℚ) ^ (52 : Int) * (2 : ℚ) ^ (floorLog n d - 52) := by
        rw [← zpow_add₀ (by norm_num : (2 : ℚ) ≠ 0)]; congr 1; ring
    _ ≤ (significand n d (floorLog n d - 52) : ℚ) * (2 : ℚ) ^ (floorLog n d - 52) :=
        mul_le_mul_of_nonneg_right hsq (by positivity)
theorem Dbl.toRat_nonneg (x : Dbl) : 0 ≤ x.toRat := by
  unfold Dbl.toRat; positivity

theorem toRat_of_nonneg (x : Dbl) (h : 0 ≤ x.e) :
    x.toRat = ((x.m * 2 ^ x.e.toNat : Nat) : ℚ) := by
  unfold Dbl.toRat
  rw [zpow_toNat_eq x.e h]
  push_cast; ring

theorem toRat_of_neg (x : Dbl) (h : x.e < 0) :
    x.toRat = (x.m : ℚ) / ((2 ^ (-x.e).toNat : Nat) : ℚ) := by
  unfold Dbl.toRat
  rw [zpow_neg_toNat_eq x.e h]
  ring

theorem ofU64_lower (n : Nat) (k : Int) (h : (2 : ℚ) ^ k ≤ (n : ℚ)) :
    (2 : ℚ) ^ k ≤ (ofU64 n).toRat :=
  roundNearest_lower n 1 (le_refl 1) k (by simpa using h)

theorem divD_lower (x : Dbl) (j : Nat) (hj : 1 ≤ j) (k : Int)
    (h : (2 : ℚ) ^ k * j ≤ x.toRat) : (2 : ℚ) ^ k ≤ (divD x j).toRat := by
  have hjq : (0 : ℚ) < j := by exact_mod_cast hj
  unfold divD
  split
  · rename_i he
    apply roundNearest_lower _ _ hj
    rw [le_div_iff₀ hjq, ← toRat_of_nonneg x he]
    exact h
  · rename_i he
    have hp : (0 : ℚ) < ((2 ^ (-x.e).toNat : Nat) : ℚ) := by positivity
    apply roundNearest_lower _ _ (Nat.mul_pos hj (by positivity))
    rw [toRat_of_neg x (by omega), le_div_iff₀ hp] at h
    rw [le_div_iff₀ (by positivity)]
    push_cast at h ⊢
    linarith

theorem mulD_lower (x : Dbl) (j : Nat) (k : Int)
    (h : (2 : ℚ) ^ k ≤ x.toRat * j) : (2 : ℚ) ^ k ≤ (mulD x j).toRat := by
  unfold mulD
  split
  · rename_i he
    apply roundNearest_lower _ _ (le_refl 1)
    rw [toRat_of_nonneg x he] at h
    push_cast at h ⊢
    simpa using h
  · rename_i he
    have hp : (0 : ℚ) < ((2 ^ (-x.e).toNat : Nat) : ℚ) := by positivity
    apply roundNearest_lower _ _ Nat.one_le_two_pow
    rw [toRat_of_neg x (by omega)] at h
    rw [le_div_iff₀ hp]
    have : (2 : ℚ) ^ k * ((2 ^ (-x.e).toNat : Nat) : ℚ) ≤
        (x.m : ℚ) / ((2 ^ (-x.e).toNat : Nat) : ℚ) * j * ((2 ^ (-x.e).toNat : Nat) : ℚ) :=
      mul_le_mul_of_nonneg_right h (le_of_lt hp)
    calc (2 : ℚ) ^ k * ((2 ^ (-x.e).toNat : Nat) : ℚ)
        ≤ (x.m : ℚ) / ((2 ^ (-x.e).toNat : Nat) : ℚ) * j * ((2 ^ (-x.e).toNat : Nat) : ℚ) := this
      _ = ((x.m * j : Nat) : ℚ) := by push_cast; field_simp

theorem trunc_lower (x : Dbl) (k : Nat) (h : ((2 ^ k : Nat) : ℚ) ≤ x.toRat) :
    2 ^ k ≤ trunc x := by
  unfold trunc
  split
  · rename_i he
    rw [toRat_of_nonneg x he] at h
    exact_mod_cast h
  · rename_i he
    have hp : (0 : ℚ) < ((2 ^ (-x.e).toNat : Nat) : ℚ) := by positivity
    rw [toRat_of_neg x (by omega), le_div_iff₀ hp] at h
    rw [Nat.le_div_iff_mul_le (by positivity)]
    exact_mod_cast h

theorem fraction_pos (n : Nat) (hn : 1 ≤ n) : 0 < (fraction n).toRat := by
  have h1 : (2 : ℚ) ^ (0 : Int) ≤ (ofU64 n).toRat :=
    ofU64_lower n 0 (by simpa using (by exact_mod_cast hn : (1 : ℚ) ≤ n))
  have h2 : (2 : ℚ) ^ (-7 : Int) ≤ (fraction n).toRat :=
    divD_lower _ 100 (by norm_num) _ (le_trans (by norm_num) h1)
  exact lt_of_lt_of_le (by positivity) h2

theorem fraction_large (n : Nat) (hn : 2 ^ 63 ≤ n) :
    (2 : ℚ) ^ (56 : Int) ≤ (fraction n).toRat := by
  have h1 : (2 : ℚ) ^ (63 : Int) ≤ (ofU64 n).toRat :=
    ofU64_lower n 63 (by
      have e63 : (2 : ℚ) ^ (63 : Int) = ((2 ^ 63 : Nat) : ℚ) := by norm_num
      rw [e63]; exact_mod_cast hn)
  exact divD_lower _ 100 (by norm_num) _ (le_trans (by norm_num) h1)

theorem toInt_large (x : Dbl) (h : (2 : ℚ) ^ (56 : Int) ≤ x.toRat) :
    toInt (mulD x BAR_HEIGHT.toNat) = Run.undefined := by
  have h1 : (2 : ℚ) ^ (62 : Int) ≤ (mulD x BAR_HEIGHT.toNat).toRat := by
    apply mulD_lower
    have h80 : BAR_HEIGHT.toNat = 80 := rfl
    have : (BAR_HEIGHT.toNat : ℚ) = 80 := by rw [h80]; norm_num
    rw [this]
    calc (2 : ℚ) ^ (62 : Int) ≤ (2 : ℚ) ^ (56 : Int) * 80 := by norm_num
      _ ≤ x.toRat * 80 := mul_le_mul_of_nonneg_right h (by norm_num)
  have h2 : 2 ^ 62 ≤ trunc (mulD x BAR_HEIGHT.toNat) :=
    trunc_lower _ 62 (by
      have e62 : ((2 ^ 62 : Nat) : ℚ) = (2 : ℚ) ^ (62 : Int) := by norm_num
      rw [e62]; exact h1)
  unfold toInt
  rw [if_neg]
  unfold INT_MAX
  have : ((2 ^ 62 : Nat) : Int) ≤ (trunc (mulD x BAR_HEIGHT.toNat) : Int) := by
    exact_mod_cast h2
  norm_num at this ⊢
  omega

theorem barRects_cpu_large (i : Nat) (cf sf : Dbl) (h : (2 : ℚ) ^ (56 : Int) ≤ cf.toRat) :
    barRects i cf sf = Run.undefined := by
  unfold barRects
  rw [toInt_large cf h]
  split <;> rfl

theorem barRects_sys_large (i : Nat) (cf sf : Dbl) (h : (2 : ℚ) ^ (56 : Int) ≤ sf.toRat) :
    barRects i cf sf = Run.undefined := by
  unfold barRects
  rw [toInt_large sf h]
  split
  · cases toInt (mulD cf BAR_HEIGHT.toNat) <;> rfl
  · rfl

/-! ## The sample arithmetic and two updates in a row -/

theorem sub64_mod (a b : Nat) (hab : b ≤ a) (hd : a - b < 2 ^ 64) :
    sub64 (a % U64) (b % U64) = a - b := by
  unfold sub64 U64
  norm_num at hd ⊢
  omega

theorem mul4_mod (d : Nat) (hd : d < 2 ^ 62) : d * POLLS_PER_SEC % U64 = d * 4 := by
  unfold POLLS_PER_SEC U64
  norm_num at hd ⊢
  omega

theorem handlerDraw_get (N : Nat) (cores : List Core) (k : Nat) (hk : k < N) :
    (handlerDraw (N : Int) cores).get? k = some ((cores.get? k).bind (drawCore k)) := by
  simp [handlerDraw, List.get?_eq_getElem?, List.getElem?_map, List.getElem?_range hk]

theorem two_updates (u1 u2 : Fields) (N k : Nat) (hk : k < N) (hN : N < 2 ^ 31)
    (cores : List Core) (hlen : cores.length = N) (pf f : Fields)
    (hpf : pf.inRange) (hf : f.inRange) :
    ∃ c1 c2 : List Core, pollLine u1 (N : Int) (coreLine k pf) cores = Run.ok c1 ∧
      pollLine u2 (N : Int) (coreLine k f) c1 = Run.ok c2 ∧ c2.length = N ∧
      c2.get? k = some
        { last := { cpu := (pf.user + pf.nice) % U64
                    sys := (pf.system + pf.iowait + pf.irq + pf.softirq) % U64 }
          now := { cpu := (f.user + f.nice) % U64
                   sys := (f.system + f.iowait + f.irq + f.softirq) % U64 } } := by
  have h1 := pollLine_coreLine u1 N k hk hN cores hlen pf hpf [] (by simp)
  rw [List.append_nil] at h1
  have hlen1 : (cores.set k (updateCore (cores.get ⟨k, hlen ▸ hk⟩) pf)).length = N := by
    simp [hlen]
  have h2 := pollLine_coreLine u2 N k hk hN _ hlen1 f hf [] (by simp)
  rw [List.append_nil] at h2
  refine ⟨_, _, h1, h2, by simp [hlen], ?_⟩
  have hk' : k < cores.length := hlen ▸ hk
  simp [List.get?_eq_getElem?, hk', updateCore]

theorem fraction_zero : fraction 0 = ⟨0, 0⟩ := by decide

theorem barRects_zero (i : Nat) :
    barRects i (fraction 0) (fraction 0) =
      if (i : Int) * BAR_WIDTH + 1 ≤ INT_MAX then
        Run.ok (⟨(i : Int) * BAR_WIDTH + 1, BAR_HEIGHT, BAR_WIDTH - 2, 0⟩,
          ⟨(i : Int) * BAR_WIDTH + 1, BAR_HEIGHT, BAR_WIDTH - 2, 0⟩)
      else Run.undefined := by
  have h : toInt (mulD (fraction 0) BAR_HEIGHT.toNat) = Run.ok 0 := by decide
  unfold barRects
  rw [h]
  have h2 : -INT_MAX - 1 ≤ BAR_HEIGHT := by decide
  simp only [sub_zero, h2, if_true, sub_self]

theorem handlerDraw_single (c : Core) : handlerDraw 1 [c] = [drawCore 0 c] := by
  have hr : List.range (1 : Int).toNat = [0] := by decide
  unfold handlerDraw
  rw [hr]
  rfl

theorem drawCore_of_guard (i : Nat) (c : Core) (h : 0 < c.last.cpu) :
    drawCore i c = some
      { cpuFraction := (fraction (sub64 c.now.cpu c.last.cpu * POLLS_PER_SEC % U64)).toRat
        systemFraction := (fraction (sub64 c.now.sys c.last.sys * POLLS_PER_SEC % U64)).toRat
        bars := barRects i (fraction (sub64 c.now.cpu c.last.cpu * POLLS_PER_SEC % U64))
          (fraction (sub64 c.now.sys c.last.sys * POLLS_PER_SEC % U64)) } := by
  simp only [drawCore, gt_iff_lt, h, if_true]

/-! ## Callbacks after the quit flag is set -/

theorem runEvents_quit (evs : List Event) :
    ∀ g : Globals, g.s_anim_quit = true → runEvents evs g = Run.ok g := by
  induction evs with
  | nil => intro g _; rfl
  | cons e es ih =>
    intro g hq
    have hstep : step g e = Run.ok g := by
      cases e with
      | tick u stat => simp [step, on_tick, hq]
      | closing =>
        cases g
        simp only at hq
        simp [step, on_closing, hq]
      | draw => rfl
    simp only [runEvents, hstep]
    exact ih g hq

/-! ## The claims -/

/-- C1: for every core count N (an `int`), core index k below N, prior core
array and well-formed line "cpu<k> user nice system idle iowait irq softirq"
of seven unsigned 64-bit values, the loop body of poll_cores sets core k's
last to its prior now, now.cpu to (user + nice) mod 2^64 and now.sys to
(system + iowait + irq + softirq) mod 2^64; poll_cores on a file that starts
with that line goes on with the remaining lines from the array so updated;
and replacing the idle value by any other leaves the result the same. -/
theorem poll_cores_updates_addressed_core (uninit : Nat → Fields) (N k : Nat) (hk : k < N)
    (hN : N < 2 ^ 31) (cores : List Core) (hlen : cores.length = N) (f : Fields)
    (hf : f.inRange) (rest : List Char) :
    ∃ c : Core, cores.get? k = some c ∧
      pollLine (uninit 0) (N : Int) (coreLine k f) cores =
        Run.ok (cores.set k
          { last := c.now
            now := { cpu := (f.user + f.nice) % 2 ^ 64
                     sys := (f.system + f.iowait + f.irq + f.softirq) % 2 ^ 64 } }) ∧
      poll_cores uninit (N : Int) (coreLine k f ++ '\n' :: rest) cores =
        poll_cores (fun j => uninit (j + 1)) (N : Int) rest (cores.set k
          { last := c.now
            now := { cpu := (f.user + f.nice) % 2 ^ 64
                     sys := (f.system + f.iowait + f.irq + f.softirq) % 2 ^ 64 } }) ∧
      ∀ idle : Nat, idle < 2 ^ 64 →
        pollLine (uninit 0) (N : Int) (coreLine k { f with idle := idle }) cores =
          pollLine (uninit 0) (N : Int) (coreLine k f) cores := by
  have h := pollLine_coreLine (uninit 0) N k hk hN cores hlen f hf [] (by simp)
  rw [List.append_nil] at h
  refine ⟨cores.get ⟨k, hlen ▸ hk⟩, List.get?_eq_get _, h, ?_, ?_⟩
  · rw [poll_cores_first_line uninit N _ rest (coreLine_chars k f).1,
      cstr_eq_self _ (coreLine_chars k f).2, h]
    rfl
  · intro idle hidle
    obtain ⟨h1, h2, h3, _, h5, h6, h7⟩ := hf
    have h' := pollLine_coreLine (uninit 0) N k hk hN cores hlen { f with idle := idle }
      ⟨h1, h2, h3, hidle, h5, h6, h7⟩ [] (by simp)
    rw [List.append_nil] at h'
    rw [h, h']
    rfl

/-- Witness of C1: a two-core array, the line "cpu1 1 2 3 4 5 6 7" and one
more line after it. -/
theorem poll_cores_updates_addressed_core_witness :
    ∃ c : Core, [zeroCore, ⟨⟨1, 2⟩, ⟨3, 4⟩⟩].get? 1 = some c ∧
      pollLine ⟨9, 9, 9, 9, 9, 9, 9⟩ ((2 : Nat) : Int) (coreLine 1 ⟨1, 2, 3, 4, 5, 6, 7⟩)
          [zeroCore, ⟨⟨1, 2⟩, ⟨3, 4⟩⟩] =
        Run.ok ([zeroCore, ⟨⟨1, 2⟩, ⟨3, 4⟩⟩].set 1
          { last := c.now
            now := { cpu := (1 + 2) % 2 ^ 64, sys := (3 + 5 + 6 + 7) % 2 ^ 64 } }) ∧
      poll_cores (fun _ => ⟨9, 9, 9, 9, 9, 9, 9⟩) ((2 : Nat) : Int)
          (coreLine 1 ⟨1, 2, 3, 4, 5, 6, 7⟩ ++ '\n' :: "intr 5".toList)
          [zeroCore, ⟨⟨1, 2⟩, ⟨3, 4⟩⟩] =
        poll_cores (fun _ => ⟨9, 9, 9, 9, 9, 9, 9⟩) ((2 : Nat) : Int) "intr 5".toList
          ([zeroCore, ⟨⟨1, 2⟩, ⟨3, 4⟩⟩].set 1
            { last := c.now
              now := { cpu := (1 + 2) % 2 ^ 64, sys := (3 + 5 + 6 + 7) % 2 ^ 64 } }) ∧
      ∀ idle : Nat, idle < 2 ^ 64 →
        pollLine ⟨9, 9, 9, 9, 9, 9, 9⟩ ((2 : Nat) : Int) (coreLine 1 ⟨1, 2, 3, idle, 5, 6, 7⟩)
            [zeroCore, ⟨⟨1, 2⟩, ⟨3, 4⟩⟩] =
          pollLine ⟨9, 9, 9, 9, 9, 9, 9⟩ ((2 : Nat) : Int) (coreLine 1 ⟨1, 2, 3, 4, 5, 6, 7⟩)
            [zeroCore, ⟨⟨1, 2⟩, ⟨3, 4⟩⟩] :=
  poll_cores_updates_addressed_core (fun _ => ⟨9, 9, 9, 9, 9, 9, 9⟩) 2 1 (by decide)
    (by decide) [zeroCore, ⟨⟨1, 2⟩, ⟨3, 4⟩⟩] rfl ⟨1, 2, 3, 4, 5, 6, 7⟩ (by decide) "intr 5".toList

/-- C2 fails as stated, in three ways.  (a) With N = 3 the line
"cpu4294967297 1 2 3 4 5 6 7", whose index is at least N, changes core 1:
atoi reduces the index to an `int`.  (b) With N = 2 the table consisting of
the line "cpufreq 1 2 3 4 5 6 7" has no line for core 0 and yet changes core
0: the line begins with "cpu" and no space, and atoi reads 0 from it.
(c) With N = 1 the table consisting of the line "cpu0" hands a NULL string to
sscanf, which is undefined. -/
theorem poll_cores_frame_counterexample :
    pollLine ⟨9, 9, 9, 9, 9, 9, 9⟩ 3 "cpu4294967297 1 2 3 4 5 6 7".toList
        [zeroCore, zeroCore, zeroCore] = Run.ok [zeroCore, ⟨⟨0, 0⟩, ⟨3, 21⟩⟩, zeroCore] ∧
      poll_cores (fun _ => ⟨9, 9, 9, 9, 9, 9, 9⟩) 2 "cpufreq 1 2 3 4 5 6 7\n".toList
        [zeroCore, zeroCore] = Run.ok [⟨⟨0, 0⟩, ⟨3, 21⟩⟩, zeroCore] ∧
      poll_cores (fun _ => ⟨9, 9, 9, 9, 9, 9, 9⟩) 1 "cpu0\n".toList [zeroCore]
        = Run.undefined := by
  refine ⟨by decide, by decide, by decide⟩

/-- C2, amended: for every core count N and every counter table each line of
which either is not taken for a per-core line (it does not begin with "cpu",
or begins with "cpu" and a space) or has the shape "cpu<j> ..." or
"cpu-<j> ..." with a decimal index within the range of `int` followed by a
space, poll_cores returns an array of the same N cores in which every core k
for which the table has no line "cpu<k> ..." keeps the last and now it had; a
line "cpu<j> ..." with N <= j, or "cpu-<j> ..." with j > 0, changes no core;
an empty table leaves the whole array unchanged. -/
theorem poll_cores_frame (uninit : Nat → Fields) (N : Nat) (cores : List Core)
    (hlen : cores.length = N) (stat : List Char)
    (hshape : ∀ l ∈ stat.splitOn '\n',
      "cpu".toList.isPrefixOf (cstr l) = false ∨ "cpu ".toList.isPrefixOf (cstr l) = true ∨
      (∃ (j : Nat) (rest : List Char), j < 2 ^ 31 ∧
        cstr l = "cpu".toList ++ (Nat.toDigits 10 j ++ ' ' :: rest)) ∨
      (∃ (j : Nat) (rest : List Char), 0 < j ∧ j ≤ 2 ^ 31 ∧
        cstr l = "cpu-".toList ++ (Nat.toDigits 10 j ++ ' ' :: rest))) :
    (∃ cores', poll_cores uninit (N : Int) stat cores = Run.ok cores' ∧ cores'.length = N ∧
      ∀ k : Nat,
        (∀ l ∈ stat.splitOn '\n', ∀ rest : List Char,
          cstr l ≠ "cpu".toList ++ (Nat.toDigits 10 k ++ ' ' :: rest)) →
        cores'.get? k = cores.get? k) ∧
    (∀ (u : Fields) (j : Nat) (rest : List Char), N ≤ j → j < 2 ^ 31 →
      pollLine u (N : Int) ("cpu".toList ++ (Nat.toDigits 10 j ++ ' ' :: rest)) cores
        = Run.ok cores) ∧
    (∀ (u : Fields) (j : Nat) (rest : List Char), 0 < j → j ≤ 2 ^ 31 →
      pollLine u (N : Int) ("cpu-".toList ++ (Nat.toDigits 10 j ++ ' ' :: rest)) cores
        = Run.ok cores) ∧
    poll_cores uninit (N : Int) [] cores = Run.ok cores := by
  have hsp_digit : ∀ c : Char, c = ' ' → isdigit c = false := by
    intro c hc; subst hc; decide
  refine ⟨?_, ?_, ?_, rfl⟩
  · rw [poll_cores_eq_pollLines]
    obtain ⟨cores', h1, h2, h3⟩ := pollLines_frame uninit N (stat.splitOn '\n') 0 cores hlen (by
      intro l hl k _ hadd
      rcases hshape l hl with h | h | ⟨j, rest, _, h⟩ | ⟨j, rest, _, _, h⟩
      · rw [addresses_no_guard _ _ (Or.inl h)] at hadd; exact absurd hadd (by simp)
      · rw [addresses_no_guard _ _ (Or.inr h)] at hadd; exact absurd hadd (by simp)
      · rw [h]; simp
      · rw [h]; simp)
    refine ⟨cores', h1, h2, fun k hk => h3 k ?_⟩
    intro l hl
    rcases hshape l hl with h | h | ⟨j, rest, hj, h⟩ | ⟨j, rest, hj, hj', h⟩
    · exact addresses_no_guard _ _ (Or.inl h)
    · exact addresses_no_guard _ _ (Or.inr h)
    · rw [h]
      apply addresses_index j hj rest k
      rintro rfl
      exact hk l hl rest h
    · rw [h]
      exact addresses_negative j hj hj' rest k
  · intro u j rest hNj hj
    apply pollLine_out_of_range
    right
    have hat : atoi (("cpu".toList ++ (Nat.toDigits 10 j ++ ' ' :: rest)).drop 3) = (j : Int) :=
      atoi_digits j hj (' ' :: rest) (by intro c hc; simp at hc; exact hsp_digit c hc.symm)
    rw [hat]
    exact_mod_cast hNj
  · intro u j rest hj hj'
    apply pollLine_out_of_range
    left
    have hat : atoi (("cpu-".toList ++ (Nat.toDigits 10 j ++ ' ' :: rest)).drop 3)
        = -(j : Int) :=
      atoi_neg_digits j hj hj' (' ' :: rest) (by intro c hc; simp at hc; exact hsp_digit c hc.symm)
    rw [hat]
    omega

/-- Witness of C2 (amended): two cores and a table with the aggregate line, a
line for core 0, a line for the absent core 5, a line with a negative index
and a line of another kind. -/
theorem poll_cores_frame_witness :
    (∃ cores', poll_cores (fun _ => ⟨9, 9, 9, 9, 9, 9, 9⟩) ((2 : Nat) : Int)
        "cpu  9 9 9 9 9 9 9\ncpu0 1 2 3 4 5 6 7\ncpu5 1 2 3 4 5 6 7\ncpu-1 1 1 1 1 1 1 1\nintr 5\n".toList
        [⟨⟨1, 2⟩, ⟨3, 4⟩⟩, ⟨⟨5, 6⟩, ⟨7, 8⟩⟩] = Run.ok cores' ∧ cores'.length = 2 ∧
      ∀ k : Nat,
        (∀ l ∈ "cpu  9 9 9 9 9 9 9\ncpu0 1 2 3 4 5 6 7\ncpu5 1 2 3 4 5 6 7\ncpu-1 1 1 1 1 1 1 1\nintr 5\n".toList.splitOn '\n',
          ∀ rest : List Char,
            cstr l ≠ "cpu".toList ++ (Nat.toDigits 10 k ++ ' ' :: rest)) →
        cores'.get? k = [⟨⟨1, 2⟩, ⟨3, 4⟩⟩, ⟨⟨5, 6⟩, ⟨7, 8⟩⟩].get? k) ∧
    (∀ (u : Fields) (j : Nat) (rest : List Char), 2 ≤ j → j < 2 ^ 31 →
      pollLine u ((2 : Nat) : Int) ("cpu".toList ++ (Nat.toDigits 10 j ++ ' ' :: rest))
        [⟨⟨1, 2⟩, ⟨3, 4⟩⟩, ⟨⟨5, 6⟩, ⟨7, 8⟩⟩] = Run.ok [⟨⟨1, 2⟩, ⟨3, 4⟩⟩, ⟨⟨5, 6⟩, ⟨7, 8⟩⟩]) ∧
    (∀ (u : Fields) (j : Nat) (rest : List Char), 0 < j → j ≤ 2 ^ 31 →
      pollLine u ((2 : Nat) : Int) ("cpu-".toList ++ (Nat.toDigits 10 j ++ ' ' :: rest))
        [⟨⟨1, 2⟩, ⟨3, 4⟩⟩, ⟨⟨5, 6⟩, ⟨7, 8⟩⟩] = Run.ok [⟨⟨1, 2⟩, ⟨3, 4⟩⟩, ⟨⟨5, 6⟩, ⟨7, 8⟩⟩]) ∧
    poll_cores (fun _ => ⟨9, 9, 9, 9, 9, 9, 9⟩) ((2 : Nat) : Int) []
      [⟨⟨1, 2⟩, ⟨3, 4⟩⟩, ⟨⟨5, 6⟩, ⟨7, 8⟩⟩] = Run.ok [⟨⟨1, 2⟩, ⟨3, 4⟩⟩, ⟨⟨5, 6⟩, ⟨7, 8⟩⟩] :=
  poll_cores_frame (fun _ => ⟨9, 9, 9, 9, 9, 9, 9⟩) 2 [⟨⟨1, 2⟩, ⟨3, 4⟩⟩, ⟨⟨5, 6⟩, ⟨7, 8⟩⟩] rfl
    "cpu  9 9 9 9 9 9 9\ncpu0 1 2 3 4 5 6 7\ncpu5 1 2 3 4 5 6 7\ncpu-1 1 1 1 1 1 1 1\nintr 5\n".toList
    (by
      have hs : "cpu  9 9 9 9 9 9 9\ncpu0 1 2 3 4 5 6 7\ncpu5 1 2 3 4 5 6 7\ncpu-1 1 1 1 1 1 1 1\nintr 5\n".toList.splitOn '\n'
          = ["cpu  9 9 9 9 9 9 9".toList, "cpu0 1 2 3 4 5 6 7".toList,
            "cpu5 1 2 3 4 5 6 7".toList, "cpu-1 1 1 1 1 1 1 1".toList, "intr 5".toList, []] := by
        decide
      rw [hs]
      intro l hl
      simp only [List.mem_cons, List.mem_singleton] at hl
      rcases hl with rfl | rfl | rfl | rfl | rfl | rfl | hl
      · exact Or.inr (Or.inl (by decide))
      · exact Or.inr (Or.inr (Or.inl ⟨0, "1 2 3 4 5 6 7".toList, by decide, by decide⟩))
      · exact Or.inr (Or.inr (Or.inl ⟨5, "1 2 3 4 5 6 7".toList, by decide, by decide⟩))
      · exact Or.inr (Or.inr (Or.inr ⟨1, "1 1 1 1 1 1 1".toList, by decide, by decide, by decide⟩))
      · exact Or.inl (by decide)
      · exact Or.inl (by decide)
      · simp at hl)

/-- C3 fails as stated, in four ways.  (a) The fraction is a double: with
previous reading user = 10, nice = 2 and new reading user = 14, nice = 3 the
draw path computes 7205759403792794 / 2^55, the double nearest to 20 / 100,
not the rational (17 - 12) * 4 / 100.  (b) With decreasing counters (cpu sum
5 then 3, system sum 5 then 4) both fractions are 184467440737095520, not
(3 - 5) * 4 / 100 and (4 - 5) * 4 / 100.  (c) With previous user = 1 and new
user = 2^62 + 1 the product by 4 wraps and the cpu fraction is 0, not
2^62 * 4 / 100.  (d) With previous user = nice = 2^63 the sum wraps to 0, so
although prevUser + prevNice > 0 nothing is computed. -/
theorem sample_formula_counterexample :
    (pollLine ⟨9, 9, 9, 9, 9, 9, 9⟩ 1 (coreLine 0 ⟨10, 2, 1, 1, 1, 1, 1⟩) [zeroCore]
        = Run.ok [⟨⟨0, 0⟩, ⟨12, 4⟩⟩] ∧
      pollLine ⟨9, 9, 9, 9, 9, 9, 9⟩ 1 (coreLine 0 ⟨14, 3, 1, 1, 1, 1, 1⟩) [⟨⟨0, 0⟩, ⟨12, 4⟩⟩]
        = Run.ok [⟨⟨12, 4⟩, ⟨17, 4⟩⟩] ∧
      (handlerDraw 1 [⟨⟨12, 4⟩, ⟨17, 4⟩⟩]).map (Option.map Sample.cpuFraction)
        = [some (7205759403792794 / 2 ^ 55)] ∧
      (7205759403792794 : ℚ) / 2 ^ 55 ≠ ((14 + 3) - (10 + 2)) * 4 / 100) ∧
    (pollLine ⟨9, 9, 9, 9, 9, 9, 9⟩ 1 (coreLine 0 ⟨5, 0, 2, 1, 1, 1, 1⟩) [zeroCore]
        = Run.ok [⟨⟨0, 0⟩, ⟨5, 5⟩⟩] ∧
      pollLine ⟨9, 9, 9, 9, 9, 9, 9⟩ 1 (coreLine 0 ⟨3, 0, 1, 1, 1, 1, 1⟩) [⟨⟨0, 0⟩, ⟨5, 5⟩⟩]
        = Run.ok [⟨⟨5, 5⟩, ⟨3, 4⟩⟩] ∧
      (handlerDraw 1 [⟨⟨5, 5⟩, ⟨3, 4⟩⟩]).map (Option.map Sample.cpuFraction)
        = [some 184467440737095520] ∧
      (handlerDraw 1 [⟨⟨5, 5⟩, ⟨3, 4⟩⟩]).map (Option.map Sample.systemFraction)
        = [some 184467440737095520] ∧
      (184467440737095520 : ℚ) ≠ ((3 + 0) - (5 + 0)) * 4 / 100 ∧
      (184467440737095520 : ℚ) ≠ ((1 + 1 + 1 + 1) - (2 + 1 + 1 + 1)) * 4 / 100) ∧
    (pollLine ⟨9, 9, 9, 9, 9, 9, 9⟩ 1 (coreLine 0 ⟨1, 0, 1, 1, 1, 1, 1⟩) [zeroCore]
        = Run.ok [⟨⟨0, 0⟩, ⟨1, 4⟩⟩] ∧
      pollLine ⟨9, 9, 9, 9, 9, 9, 9⟩ 1 (coreLine 0 ⟨2 ^ 62 + 1, 0, 1, 1, 1, 1, 1⟩)
          [⟨⟨0, 0⟩, ⟨1, 4⟩⟩]
        = Run.ok [⟨⟨1, 4⟩, ⟨2 ^ 62 + 1, 4⟩⟩] ∧
      (handlerDraw 1 [⟨⟨1, 4⟩, ⟨2 ^ 62 + 1, 4⟩⟩]).map (Option.map Sample.cpuFraction)
        = [some 0] ∧
      (0 : ℚ) ≠ ((2 ^ 62 + 1 + 0) - (1 + 0)) * 4 / 100) ∧
    (pollLine ⟨9, 9, 9, 9, 9, 9, 9⟩ 1 (coreLine 0 ⟨2 ^ 63, 2 ^ 63, 1, 1, 1, 1, 1⟩) [zeroCore]
        = Run.ok [⟨⟨0, 0⟩, ⟨0, 4⟩⟩] ∧
      pollLine ⟨9, 9, 9, 9, 9, 9, 9⟩ 1 (coreLine 0 ⟨2 ^ 63, 2 ^ 63 + 1, 1, 1, 1, 1, 1⟩)
          [⟨⟨0, 0⟩, ⟨0, 4⟩⟩]
        = Run.ok [⟨⟨0, 4⟩, ⟨1, 4⟩⟩] ∧
      handlerDraw 1 [⟨⟨0, 4⟩, ⟨1, 4⟩⟩] = [none]) := by
  have f20 : fraction 20 = ⟨7205759403792794, -55⟩ := by decide
  have fbig : fraction 18446744073709551608 = ⟨5764607523034235, 5⟩ := by decide
  have fbig' : fraction 18446744073709551612 = ⟨5764607523034235, 5⟩ := by decide
  have fz : fraction 0 = ⟨0, 0⟩ := by decide
  refine ⟨⟨by decide, by decide, ?_, by norm_num⟩,
    ⟨by decide, by decide, ?_, ?_, by norm_num, by norm_num⟩,
    ⟨by decide, by decide, ?_, by norm_num⟩, ⟨by decide, by decide, by decide⟩⟩
  · have e : sub64 17 12 * POLLS_PER_SEC % U64 = 20 := by decide
    rw [handlerDraw_single, drawCore_of_guard 0 _ (by decide)]
    simp only [List.map_cons, List.map_nil, Option.map_some', e, f20, Dbl.toRat]
    norm_num
  · have e : sub64 3 5 * POLLS_PER_SEC % U64 = 18446744073709551608 := by decide
    rw [handlerDraw_single, drawCore_of_guard 0 _ (by decide)]
    simp only [List.map_cons, List.map_nil, Option.map_some', e, fbig, Dbl.toRat]
    norm_num
  · have e : sub64 4 5 * POLLS_PER_SEC % U64 = 18446744073709551612 := by decide
    rw [handlerDraw_single, drawCore_of_guard 0 _ (by decide)]
    simp only [List.map_cons, List.map_nil, Option.map_some', e, fbig', Dbl.toRat]
    norm_num
  · have e : sub64 (2 ^ 62 + 1) 1 * POLLS_PER_SEC % U64 = 0 := by decide
    rw [handlerDraw_single, drawCore_of_guard 0 _ (by decide)]
    simp only [List.map_cons, List.map_nil, Option.map_some', e, fz, Dbl.toRat]
    norm_num

/-- C3, amended: when the previous update of core k had
(prevUser + prevNice) mod 2^64 > 0, the update followed by the draw path
yields a sample in which, for each counter that moved forward by less than
2^62 ticks, the fraction is the double obtained by converting the difference
times 4 to double and dividing by 100.0 (round to nearest): cpuFraction is the
double ((user + nice) - (prevUser + prevNice)) * 4 / 100.0 and systemFraction
the double ((system + iowait + irq + softirq) - (previous system + iowait +
irq + softirq)) * 4 / 100.0. -/
theorem sample_formula (u1 u2 : Fields) (N k : Nat) (hk : k < N) (hN : N < 2 ^ 31)
    (cores : List Core) (hlen : cores.length = N) (pf f : Fields)
    (hpf : pf.inRange) (hf : f.inRange)
    (hguard : 0 < (pf.user + pf.nice) % 2 ^ 64) :
    ∃ (c1 c2 : List Core) (s : Sample),
      pollLine u1 (N : Int) (coreLine k pf) cores = Run.ok c1 ∧
      pollLine u2 (N : Int) (coreLine k f) c1 = Run.ok c2 ∧
      (handlerDraw (N : Int) c2).get? k = some (some s) ∧
      (pf.user + pf.nice ≤ f.user + f.nice →
        (f.user + f.nice) - (pf.user + pf.nice) < 2 ^ 62 →
        s.cpuFraction =
          (fraction (((f.user + f.nice) - (pf.user + pf.nice)) * POLLS_PER_SEC)).toRat) ∧
      (pf.system + pf.iowait + pf.irq + pf.softirq ≤ f.system + f.iowait + f.irq + f.softirq →
        (f.system + f.iowait + f.irq + f.softirq) -
          (pf.system + pf.iowait + pf.irq + pf.softirq) < 2 ^ 62 →
        s.systemFraction =
          (fraction (((f.system + f.iowait + f.irq + f.softirq) -
            (pf.system + pf.iowait + pf.irq + pf.softirq)) * POLLS_PER_SEC)).toRat) := by
  obtain ⟨c1, c2, h1, h2, _, h3⟩ := two_updates u1 u2 N k hk hN cores hlen pf f hpf hf
  have hg : 0 < (pf.user + pf.nice) % U64 := hguard
  have hget := handlerDraw_get N c2 k hk
  rw [h3, Option.some_bind, drawCore_of_guard k _ hg] at hget
  refine ⟨c1, c2, _, h1, h2, hget, ?_, ?_⟩
  · intro hcpu hcpu'
    have e1 := sub64_mod _ _ hcpu (by omega)
    dsimp only
    rw [e1, mul4_mod _ hcpu']
    rfl
  · intro hsys hsys'
    have e2 := sub64_mod _ _ hsys (by omega)
    dsimp only
    rw [e2, mul4_mod _ hsys']
    rfl

/-- Witness of C3 (amended): previous reading 10 2 3 4 5 6 7, new reading
14 3 5 9 6 7 8 on core 1 of 2. -/
theorem sample_formula_witness :
    ∃ (c1 c2 : List Core) (s : Sample),
      pollLine ⟨9, 9, 9, 9, 9, 9, 9⟩ ((2 : Nat) : Int) (coreLine 1 ⟨10, 2, 3, 4, 5, 6, 7⟩)
        [zeroCore, zeroCore] = Run.ok c1 ∧
      pollLine ⟨8, 8, 8, 8, 8, 8, 8⟩ ((2 : Nat) : Int) (coreLine 1 ⟨14, 3, 5, 9, 6, 7, 8⟩) c1
        = Run.ok c2 ∧
      (handlerDraw ((2 : Nat) : Int) c2).get? 1 = some (some s) ∧
      (10 + 2 ≤ 14 + 3 → (14 + 3) - (10 + 2) < 2 ^ 62 →
        s.cpuFraction = (fraction (((14 + 3) - (10 + 2)) * POLLS_PER_SEC)).toRat) ∧
      (3 + 5 + 6 + 7 ≤ 5 + 6 + 7 + 8 → (5 + 6 + 7 + 8) - (3 + 5 + 6 + 7) < 2 ^ 62 →
        s.systemFraction =
          (fraction (((5 + 6 + 7 + 8) - (3 + 5 + 6 + 7)) * POLLS_PER_SEC)).toRat) :=
  sample_formula ⟨9, 9, 9, 9, 9, 9, 9⟩ ⟨8, 8, 8, 8, 8, 8, 8⟩ 2 1 (by decide) (by decide)
    [zeroCore, zeroCore] rfl ⟨10, 2, 3, 4, 5, 6, 7⟩ ⟨14, 3, 5, 9, 6, 7, 8⟩ (by decide) (by decide)
    (by decide)

/-- C4: starting from the zero-filled core array that main builds, after one
update of core k from a well-formed line core k has last.cpu = 0, so the
guard of the draw path fails and nothing is computed or drawn for it. -/
theorem first_update_reports_no_data (cpuinfo : List Char) (g : Globals)
    (hg : main cpuinfo = some g) (uninit : Fields) (k : Nat)
    (hk : (k : Int) < g.s_num_cores) (hN : g.s_num_cores < 2 ^ 31)
    (f : Fields) (hf : f.inRange) :
    ∃ cores' : List Core,
      pollLine uninit g.s_num_cores (coreLine k f) g.s_cores = Run.ok cores' ∧
      (∃ c : Core, cores'.get? k = some c ∧ c.last.cpu = 0) ∧
      (handlerDraw g.s_num_cores cores').get? k = some none := by
  unfold main at hg
  rw [count_cores_eq] at hg
  generalize (cpuinfo.splitOn '\n').countP (fun l => "processor\t".toList.isPrefixOf l) = n
    at hg
  by_cases hc : (n : Int) ≤ INT_MAX
  · rw [if_pos hc] at hg
    simp only [Option.some.injEq] at hg
    subst hg
    simp only [Int.toNat_ofNat] at hk hN ⊢
    have hk' : k < n := by exact_mod_cast hk
    have hN' : n < 2 ^ 31 := by exact_mod_cast hN
    have hlen : (List.replicate n zeroCore).length = n := List.length_replicate _ _
    have h := pollLine_coreLine uninit n k hk' hN' _ hlen f hf [] (by simp)
    rw [List.append_nil] at h
    refine ⟨_, h, ⟨updateCore zeroCore f, ?_, rfl⟩, ?_⟩
    · simp [List.get?_eq_getElem?, hk']
    · rw [handlerDraw_get n _ k hk']
      simp [List.get?_eq_getElem?, hk', updateCore, zeroCore, drawCore]
  · rw [if_neg hc] at hg
    simp at hg

/-- Witness of C4: a listing with two processors and the line
"cpu1 1 2 3 4 5 6 7". -/
theorem first_update_reports_no_data_witness :
    ∃ cores' : List Core,
      pollLine ⟨9, 9, 9, 9, 9, 9, 9⟩ (2 : Int) (coreLine 1 ⟨1, 2, 3, 4, 5, 6, 7⟩)
        [zeroCore, zeroCore] = Run.ok cores' ∧
      (∃ c : Core, cores'.get? 1 = some c ∧ c.last.cpu = 0) ∧
      (handlerDraw (2 : Int) cores').get? 1 = some none :=
  first_update_reports_no_data "processor\t: 0\nmodel name\t: x\nprocessor\t: 1\n".toList
    ⟨2, [zeroCore, zeroCore], false, 0⟩ (by decide) ⟨9, 9, 9, 9, 9, 9, 9⟩ 1 (by decide)
    (by decide) ⟨1, 2, 3, 4, 5, 6, 7⟩ (by decide)


/-- C5 fails as stated: after two updates of core 0 with the identical
reading 0 0 3 4 5 6 7 (user + nice = 0) the draw path computes no fractions
at all for the core. -/
theorem identical_readings_counterexample :
    pollLine ⟨9, 9, 9, 9, 9, 9, 9⟩ 1 (coreLine 0 ⟨0, 0, 3, 4, 5, 6, 7⟩) [zeroCore]
        = Run.ok [⟨⟨0, 0⟩, ⟨0, 21⟩⟩] ∧
      pollLine ⟨9, 9, 9, 9, 9, 9, 9⟩ 1 (coreLine 0 ⟨0, 0, 3, 4, 5, 6, 7⟩) [⟨⟨0, 0⟩, ⟨0, 21⟩⟩]
        = Run.ok [⟨⟨0, 21⟩, ⟨0, 21⟩⟩] ∧
      handlerDraw 1 [⟨⟨0, 21⟩, ⟨0, 21⟩⟩] = [none] := by
  refine ⟨by decide, by decide, by decide⟩

/-- C5, amended: after two consecutive updates of core k with an identical
reading, the draw path yields cpuFraction = 0 and systemFraction = 0 (and two
bars of height 0 on the base line, as long as the `int` x coordinate
k * BAR_WIDTH + 1 does not overflow) when (user + nice) mod 2^64 > 0, and
computes nothing for the core when (user + nice) mod 2^64 = 0. -/
theorem identical_readings_zero (u1 u2 : Fields) (N k : Nat) (hk : k < N) (hN : N < 2 ^ 31)
    (cores : List Core) (hlen : cores.length = N) (f : Fields) (hf : f.inRange) :
    ∃ c1 c2 : List Core, pollLine u1 (N : Int) (coreLine k f) cores = Run.ok c1 ∧
      pollLine u2 (N : Int) (coreLine k f) c1 = Run.ok c2 ∧
      (handlerDraw (N : Int) c2).get? k = some
        (if 0 < (f.user + f.nice) % 2 ^ 64 then
          some { cpuFraction := 0
                 systemFraction := 0
                 bars :=
                   if (k : Int) * BAR_WIDTH + 1 ≤ INT_MAX then
                     Run.ok (⟨(k : Int) * BAR_WIDTH + 1, BAR_HEIGHT, BAR_WIDTH - 2, 0⟩,
                       ⟨(k : Int) * BAR_WIDTH + 1, BAR_HEIGHT, BAR_WIDTH - 2, 0⟩)
                   else Run.undefined }
        else none) := by
  obtain ⟨c1, c2, h1, h2, _, h3⟩ := two_updates u1 u2 N k hk hN cores hlen f f hf hf
  refine ⟨c1, c2, h1, h2, ?_⟩
  rw [handlerDraw_get N c2 k hk, h3]
  have e1 := sub64_mod (f.user + f.nice) _ (le_refl _) (by simp)
  have e2 := sub64_mod (f.system + f.iowait + f.irq + f.softirq) _ (le_refl _) (by simp)
  have hU : (2 : Nat) ^ 64 = U64 := rfl
  rw [hU]
  by_cases hg : 0 < (f.user + f.nice) % U64
  · simp only [Option.some_bind, drawCore, gt_iff_lt, hg, if_true, e1, e2, Nat.sub_self,
      Nat.zero_mul, Nat.zero_mod, barRects_zero]
    simp [fraction_zero, Dbl.toRat]
  · simp [drawCore, hg]

/-- Witness of C5 (amended): the reading 1 2 3 4 5 6 7 twice on core 0. -/
theorem identical_readings_zero_witness :
    ∃ c1 c2 : List Core,
      pollLine ⟨9, 9, 9, 9, 9, 9, 9⟩ ((1 : Nat) : Int) (coreLine 0 ⟨1, 2, 3, 4, 5, 6, 7⟩)
        [zeroCore] = Run.ok c1 ∧
      pollLine ⟨8, 8, 8, 8, 8, 8, 8⟩ ((1 : Nat) : Int) (coreLine 0 ⟨1, 2, 3, 4, 5, 6, 7⟩) c1
        = Run.ok c2 ∧
      (handlerDraw ((1 : Nat) : Int) c2).get? 0 = some
        (if 0 < (1 + 2) % 2 ^ 64 then
          some { cpuFraction := 0
                 systemFraction := 0
                 bars :=
                   if ((0 : Nat) : Int) * BAR_WIDTH + 1 ≤ INT_MAX then
                     Run.ok (⟨((0 : Nat) : Int) * BAR_WIDTH + 1, BAR_HEIGHT, BAR_WIDTH - 2, 0⟩,
                       ⟨((0 : Nat) : Int) * BAR_WIDTH + 1, BAR_HEIGHT, BAR_WIDTH - 2, 0⟩)
                   else Run.undefined }
        else none) :=
  identical_readings_zero ⟨9, 9, 9, 9, 9, 9, 9⟩ ⟨8, 8, 8, 8, 8, 8, 8⟩ 1 0 (by decide)
    (by decide) [zeroCore] rfl ⟨1, 2, 3, 4, 5, 6, 7⟩ (by decide)

/-- C6 fails as stated: for a core with last = (5, 5) and now = (3, 7) the
draw path computes the cpu fraction 184467440737095520 (the double nearest to
(2^64 - 8) / 100), which is not 0, and the conversion of that fraction times
BAR_HEIGHT to `int` for the bar is out of range, so what is drawn is
undefined. -/
theorem negative_delta_counterexample :
    handlerDraw 1 [⟨⟨5, 5⟩, ⟨3, 7⟩⟩] =
        [some ⟨184467440737095520, 5764607523034235 / 2 ^ 56, Run.undefined⟩] ∧
      (184467440737095520 : ℚ) ≠ 0 := by
  refine ⟨?_, by norm_num⟩
  have hc : fraction 18446744073709551608 = ⟨5764607523034235, 5⟩ := by decide
  have hs : fraction 8 = ⟨5764607523034235, -56⟩ := by decide
  have hb : barRects 0 ⟨5764607523034235, 5⟩ ⟨5764607523034235, -56⟩ = Run.undefined := by
    decide
  have e1 : sub64 3 5 * POLLS_PER_SEC % U64 = 18446744073709551608 := by decide
  have e2 : sub64 7 5 * POLLS_PER_SEC % U64 = 8 := by decide
  have hr : List.range (1 : Int).toNat = [0] := by decide
  simp only [handlerDraw, hr, List.map_cons, List.map_nil, List.get?_cons_zero, Option.some_bind,
    drawCore, gt_iff_lt, Nat.lt_add_left_iff_pos, Nat.ofNat_pos, if_true, e1, e2, hc, hs, hb,
    Dbl.toRat]
  norm_num

/-- C6, amended: for a core with last.cpu > 0 the draw path computes two
fractions that are never negative, but a negative raw delta is not clamped:
when now < last for a counter, its fraction is the double
((2^64 - (last - now)) * 4 mod 2^64) / 100.0 of the wrapped unsigned value,
which is positive unless last - now is a multiple of 2^62, and when
last - now < 2^61 the conversion of fraction * BAR_HEIGHT to `int` is out of
range, so what is drawn for the core is undefined. -/
theorem negative_delta_wraps (i : Nat) (c : Core) (hlast : 0 < c.last.cpu)
    (hcpu : c.last.cpu < 2 ^ 64) (hsys : c.last.sys < 2 ^ 64) :
    ∃ s : Sample, drawCore i c = some s ∧ 0 ≤ s.cpuFraction ∧ 0 ≤ s.systemFraction ∧
      (c.now.cpu < c.last.cpu →
        s.cpuFraction = (fraction ((2 ^ 64 - (c.last.cpu - c.now.cpu)) * 4 % 2 ^ 64)).toRat ∧
        ((c.last.cpu - c.now.cpu) % 2 ^ 62 ≠ 0 → 0 < s.cpuFraction) ∧
        (c.last.cpu - c.now.cpu < 2 ^ 61 → s.bars = Run.undefined)) ∧
      (c.now.sys < c.last.sys →
        s.systemFraction = (fraction ((2 ^ 64 - (c.last.sys - c.now.sys)) * 4 % 2 ^ 64)).toRat ∧
        ((c.last.sys - c.now.sys) % 2 ^ 62 ≠ 0 → 0 < s.systemFraction) ∧
        (c.last.sys - c.now.sys < 2 ^ 61 → s.bars = Run.undefined)) := by
  have key : ∀ a b : Nat, b < 2 ^ 64 → a < b →
      sub64 a b * POLLS_PER_SEC % U64 = (2 ^ 64 - (b - a)) * 4 % 2 ^ 64 ∧
      ((b - a) % 2 ^ 62 ≠ 0 → 1 ≤ (2 ^ 64 - (b - a)) * 4 % 2 ^ 64) ∧
      (b - a < 2 ^ 61 → 2 ^ 63 ≤ (2 ^ 64 - (b - a)) * 4 % 2 ^ 64) := by
    intro a b hb hab
    unfold sub64 U64 POLLS_PER_SEC
    norm_num at hb ⊢
    omega
  have hd : drawCore i c = some
      { cpuFraction := (fraction (sub64 c.now.cpu c.last.cpu * POLLS_PER_SEC % U64)).toRat
        systemFraction := (fraction (sub64 c.now.sys c.last.sys * POLLS_PER_SEC % U64)).toRat
        bars := barRects i (fraction (sub64 c.now.cpu c.last.cpu * POLLS_PER_SEC % U64))
          (fraction (sub64 c.now.sys c.last.sys * POLLS_PER_SEC % U64)) } := by
    simp only [drawCore, gt_iff_lt, hlast, if_true]
  refine ⟨_, hd, Dbl.toRat_nonneg _, Dbl.toRat_nonneg _, ?_, ?_⟩
  · intro h
    obtain ⟨k1, k2, k3⟩ := key _ _ hcpu h
    simp only [k1]
    exact ⟨trivial, fun hne => fraction_pos _ (k2 hne),
      fun hlt => barRects_cpu_large _ _ _ (fraction_large _ (k3 hlt))⟩
  · intro h
    obtain ⟨k1, k2, k3⟩ := key _ _ hsys h
    simp only [k1]
    exact ⟨trivial, fun hne => fraction_pos _ (k2 hne),
      fun hlt => barRects_sys_large _ _ _ (fraction_large _ (k3 hlt))⟩

/-- Witness of C6 (amended): core 0 with last = (5, 5), now = (3, 7). -/
theorem negative_delta_wraps_witness :
    ∃ s : Sample, drawCore 0 ⟨⟨5, 5⟩, ⟨3, 7⟩⟩ = some s ∧ 0 ≤ s.cpuFraction ∧
      0 ≤ s.systemFraction ∧
      ((3 : Nat) < 5 →
        s.cpuFraction = (fraction ((2 ^ 64 - (5 - 3)) * 4 % 2 ^ 64)).toRat ∧
        ((5 - 3) % 2 ^ 62 ≠ 0 → 0 < s.cpuFraction) ∧
        (5 - 3 < 2 ^ 61 → s.bars = Run.undefined)) ∧
      ((7 : Nat) < 5 →
        s.systemFraction = (fraction ((2 ^ 64 - (5 - 7)) * 4 % 2 ^ 64)).toRat ∧
        ((5 - 7) % 2 ^ 62 ≠ 0 → 0 < s.systemFraction) ∧
        (5 - 7 < 2 ^ 61 → s.bars = Run.undefined)) :=
  negative_delta_wraps 0 ⟨⟨5, 5⟩, ⟨3, 7⟩⟩ (by decide) (by decide) (by decide)

/-- C7: for every input text with fewer than 2^31 lines that begin with the
ten characters "processor" followed by a tab (the counter is an `int`),
count_cores returns the number of such lines of the text split at the newline
character; lines with any other content are not counted. -/
theorem count_cores_counts_processor_lines (cpuinfo : List Char)
    (h : (cpuinfo.splitOn '\n').countP (fun l => "processor\t".toList.isPrefixOf l) < 2 ^ 31) :
    count_cores cpuinfo = Run.ok
      (((cpuinfo.splitOn '\n').countP (fun l => "processor\t".toList.isPrefixOf l) : Nat) : Int) := by
  rw [count_cores_eq]
  have : (((cpuinfo.splitOn '\n').countP (fun l => "processor\t".toList.isPrefixOf l) : Nat) : Int)
      ≤ INT_MAX := by
    have : (((cpuinfo.splitOn '\n').countP
        (fun l => "processor\t".toList.isPrefixOf l) : Nat) : Int) < 2 ^ 31 := by
      exact_mod_cast h
    unfold INT_MAX; omega
  simp only [this, if_true]

/-- Witness of C7: a listing with exactly four "processor" lines among other
lines, one of which holds "processor" and a tab only after its first
character; count_cores returns 4. -/
theorem count_cores_counts_processor_lines_witness :
    count_cores
      "processor\t: 0\nmodel name\t: x\n\nprocessor\t: 1\n processor\t: 9\nprocessor\t: 2\nflags\t: processor\t\nprocessor\t: 3".toList
      = Run.ok 4 :=
  count_cores_counts_processor_lines
    "processor\t: 0\nmodel name\t: x\n\nprocessor\t: 1\n processor\t: 9\nprocessor\t: 2\nflags\t: processor\t\nprocessor\t: 3".toList
    (by decide)

/-- C8 fails as stated: with one core whose last is (1, 2) and now is (3, 4),
the line "cpu0 12 x" is not skipped; the core's last becomes (3, 4) and its
now is computed from user = 12 and the values the other six locals happen to
hold (here 9 each). -/
theorem malformed_line_counterexample :
    pollLine ⟨9, 9, 9, 9, 9, 9, 9⟩ 1 "cpu0 12 x".toList [⟨⟨1, 2⟩, ⟨3, 4⟩⟩] =
      Run.ok [⟨⟨3, 4⟩, ⟨21, 36⟩⟩] := by
  decide

/-- C8, amended: a line that passes the per-core test for an index k below N
and contains a space is never skipped, whatever its fields: core k's last
becomes its prior now, its now is computed from the seven locals as sscanf
leaves them (a field that was not converted keeps the indeterminate value of
the uninitialised local), every other core is unchanged, and poll_cores goes
on with the remaining lines of the table. -/
theorem malformed_line_still_updates (uninit : Nat → Fields) (N k : Nat) (hk : k < N)
    (cores : List Core) (hlen : cores.length = N) (s : List Char)
    (hnl : '\n' ∉ s) (hnul : '\x00' ∉ s) (hadd : addresses s k = true) (hsp : ' ' ∈ s)
    (rest : List Char) :
    ∃ (c : Core) (off : Nat) (cores' : List Core),
      cores.get? k = some c ∧ strstr s " ".toList = some off ∧
      pollLine (uninit 0) (N : Int) s cores = Run.ok cores' ∧
      cores'.get? k = some
        { last := c.now
          now := { cpu := ((sscanf7 (s.drop off) (uninit 0)).user +
                     (sscanf7 (s.drop off) (uninit 0)).nice) % 2 ^ 64
                   sys := ((sscanf7 (s.drop off) (uninit 0)).system +
                     (sscanf7 (s.drop off) (uninit 0)).iowait +
                     (sscanf7 (s.drop off) (uninit 0)).irq +
                     (sscanf7 (s.drop off) (uninit 0)).softirq) % 2 ^ 64 } } ∧
      (∀ j : Nat, j ≠ k → cores'.get? j = cores.get? j) ∧
      poll_cores uninit (N : Int) (s ++ '\n' :: rest) cores =
        poll_cores (fun j => uninit (j + 1)) (N : Int) rest cores' := by
  simp only [addresses, Bool.and_eq_true, beq_iff_eq] at hadd
  obtain ⟨hg, hat⟩ := hadd
  have hg' : (startswith s "cpu".toList && !startswith s "cpu ".toList) = true := by
    simpa using hg
  have hr : (decide (atoi (s.drop 3) ≥ 0) && decide (atoi (s.drop 3) < (N : Int))) = true := by
    simp only [Bool.and_eq_true, decide_eq_true_eq]
    omega
  obtain ⟨off, hoff⟩ := strstr_space_of_mem s hsp
  have hk' : k < cores.length := hlen ▸ hk
  have hget : cores.get? k = some (cores.get ⟨k, hk'⟩) := List.get?_eq_get _
  have hline : pollLine (uninit 0) (N : Int) s cores = Run.ok
      (cores.set k (updateCore (cores.get ⟨k, hk'⟩) (sscanf7 (s.drop off) (uninit 0)))) := by
    rw [pollLine_in_range _ _ _ _ hg' hr, hat, Int.toNat_ofNat, hget, hoff]
  refine ⟨_, off, _, hget, hoff, hline, ?_, ?_, ?_⟩
  · simp [List.get?_eq_getElem?, hk', updateCore, U64]
  · intro j hj
    simp [List.get?_eq_getElem?, List.getElem?_set, Ne.symm hj]
  · rw [poll_cores_first_line uninit N s rest hnl, cstr_eq_self s hnul, hline]

/-- Witness of C8 (amended): the line "cpu0 12 x" followed by a line for
core 1, on two cores. -/
theorem malformed_line_still_updates_witness :
    ∃ (c : Core) (off : Nat) (cores' : List Core),
      [⟨⟨1, 2⟩, ⟨3, 4⟩⟩, zeroCore].get? 0 = some c ∧
      strstr "cpu0 12 x".toList " ".toList = some off ∧
      pollLine ⟨9, 9, 9, 9, 9, 9, 9⟩ ((2 : Nat) : Int) "cpu0 12 x".toList
        [⟨⟨1, 2⟩, ⟨3, 4⟩⟩, zeroCore] = Run.ok cores' ∧
      cores'.get? 0 = some
        { last := c.now
          now := { cpu := ((sscanf7 ("cpu0 12 x".toList.drop off) ⟨9, 9, 9, 9, 9, 9, 9⟩).user +
                     (sscanf7 ("cpu0 12 x".toList.drop off) ⟨9, 9, 9, 9, 9, 9, 9⟩).nice) % 2 ^ 64
                   sys := ((sscanf7 ("cpu0 12 x".toList.drop off) ⟨9, 9, 9, 9, 9, 9, 9⟩).system +
                     (sscanf7 ("cpu0 12 x".toList.drop off) ⟨9, 9, 9, 9, 9, 9, 9⟩).iowait +
                     (sscanf7 ("cpu0 12 x".toList.drop off) ⟨9, 9, 9, 9, 9, 9, 9⟩).irq +
                     (sscanf7 ("cpu0 12 x".toList.drop off) ⟨9, 9, 9, 9, 9, 9, 9⟩).softirq)
                       % 2 ^ 64 } } ∧
      (∀ j : Nat, j ≠ 0 → cores'.get? j = [⟨⟨1, 2⟩, ⟨3, 4⟩⟩, zeroCore].get? j) ∧
      poll_cores (fun _ => ⟨9, 9, 9, 9, 9, 9, 9⟩) ((2 : Nat) : Int)
          ("cpu0 12 x".toList ++ '\n' :: "cpu1 1 2 3 4 5 6 7\n".toList)
          [⟨⟨1, 2⟩, ⟨3, 4⟩⟩, zeroCore] =
        poll_cores (fun _ => ⟨9, 9, 9, 9, 9, 9, 9⟩) ((2 : Nat) : Int)
          "cpu1 1 2 3 4 5 6 7\n".toList cores' :=
  malformed_line_still_updates (fun _ => ⟨9, 9, 9, 9, 9, 9, 9⟩) 2 0 (by decide)
    [⟨⟨1, 2⟩, ⟨3, 4⟩⟩, zeroCore] rfl "cpu0 12 x".toList (by decide) (by decide) (by decide)
    (by decide) "cpu1 1 2 3 4 5 6 7\n".toList


/-- C9: once on_closing has set the quit flag, on_tick changes nothing (no
core, no redraw request), and after any sequence of callbacks the state is
still the one on_closing left: the core array and the number of redraw
requests are those at the stop request and the flag is still set. -/
theorem stop_freezes_cores (g : Globals) :
    (∀ (uninit : Nat → Fields) (stat : List Char),
      on_tick uninit stat (on_closing g) = Run.ok (on_closing g)) ∧
    (∀ evs : List Event, ∃ g' : Globals, runEvents evs (on_closing g) = Run.ok g' ∧
      g'.s_cores = g.s_cores ∧ g'.redraws = g.redraws ∧ g'.s_anim_quit = true ∧
      g'.s_num_cores = g.s_num_cores) := by
  refine ⟨fun u stat => by simp [on_tick, on_closing], fun evs => ?_⟩
  exact ⟨on_closing g, runEvents_quit evs (on_closing g) rfl, rfl, rfl, rfl, rfl⟩


/-- C10 fails as stated: on one zero-filled core the line
"cpux 1 2 3 4 5 6 7" is taken as a line for core 0 (atoi reads 0) and changes
that core. -/
theorem cpux_line_counterexample :
    pollLine ⟨9, 9, 9, 9, 9, 9, 9⟩ 1 "cpux 1 2 3 4 5 6 7".toList [zeroCore] =
      Run.ok [⟨⟨0, 0⟩, ⟨3, 21⟩⟩] := by
  decide

/-- C10, amended: poll_cores takes a line as a per-core line when it begins
with "cpu" and the next character is not a space; every line that does not
begin with "cpu", and every line that begins with "cpu" and a space (the
aggregate line), leaves every core unchanged. -/
theorem non_core_line_ignored (u : Fields) (N : Int) (s : List Char) (cores : List Core)
    (h : "cpu".toList.isPrefixOf s = false ∨ "cpu ".toList.isPrefixOf s = true) :
    pollLine u N s cores = Run.ok cores := by
  apply pollLine_no_guard
  rw [startswith_eq, startswith_eq]
  rcases h with h | h <;> rw [h]
  · simp only [Bool.false_and, Bool.false_eq_true, not_false_eq_true]
  · simp only [Bool.not_true, Bool.and_false, Bool.false_eq_true, not_false_eq_true]

/-- Witness of C10 (amended): the aggregate line. -/
theorem non_core_line_ignored_witness :
    pollLine ⟨9, 9, 9, 9, 9, 9, 9⟩ 2 "cpu  10 20 30 40 50 60 70".toList
      [⟨⟨1, 2⟩, ⟨3, 4⟩⟩, zeroCore] = Run.ok [⟨⟨1, 2⟩, ⟨3, 4⟩⟩, zeroCore] :=
  non_core_line_ignored ⟨9, 9, 9, 9, 9, 9, 9⟩ 2 "cpu  10 20 30 40 50 60 70".toList
    [⟨⟨1, 2⟩, ⟨3, 4⟩⟩, zeroCore] (Or.inr (by decide))

end Coremon
